/- Verification of the Tri DSL translator (src/Tri.cxx): a shallow embedding of
   the source loader, the lowering pass (pass1), the sizing pass (asm_passA),
   and the emission pass (asm_passB), together with theorems about the
   behaviours claimed for them. Lines are modelled as lists of characters;
   fatal diagnostics are modelled with Except; machine integers are Nat/Int
   with explicit reductions modulo 2^32 / 2^64 where the C code wraps. -/
import Mathlib

namespace Tri

abbrev Line := List Char

def M32 : Nat := 4294967296

def M64 : Nat := 18446744073709551616

/-- Characters stripped from the front of a line by trim (space and tab). -/
def isSpTab (c : Char) : Bool := c == ' ' || c == '\t'

/-- Characters stripped from the end of a line by trim (space, tab, CR, LF). -/
def isTrimEnd (c : Char) : Bool := c == ' ' || c == '\t' || c == '\r' || c == '\n'

/-- trim from Tri.cxx: drop leading spaces/tabs, drop trailing spaces/tabs/CR/LF. -/
def trim (s : Line) : Line :=
  ((s.dropWhile isSpTab).reverse.dropWhile isTrimEnd).reverse

/-- The strtok delimiter set used throughout the assembler: space, tab, comma. -/
def isDelim (c : Char) : Bool := c == ' ' || c == '\t' || c == ','

/-- Split a line at delimiter characters, keeping empty pieces. -/
def splitAcc (s : Line) : List Line :=
  s.foldr (fun c acc => if isDelim c then [] :: acc else (c :: acc.headD []) :: acc.tail) [[]]

/-- strtok-style tokenisation: the nonempty pieces between delimiters. -/
def tokenize (s : Line) : List Line :=
  (splitAcc s).filter (fun t => !t.isEmpty)

/-- pfx p s: strncmp(s, p, p.length) == 0, i.e. p is a prefix of s. -/
def pfx : Line → Line → Bool
  | [], _ => true
  | _ :: _, [] => false
  | p :: ps, c :: cs => p == c && pfx ps cs

/-- lastIs s c: s is nonempty and its final character is c. -/
def lastIs (s : Line) (c : Char) : Bool := s.getLast? == some c

/-- Split at the first comma (strchr(p, ',')); none when there is no comma. -/
def splitComma (s : Line) : Option (Line × Line) :=
  if s.contains ',' then
    some (s.takeWhile (fun c => c != ','), (s.dropWhile (fun c => c != ',')).tail)
  else none

/-- Comma-join a list of operand strings. -/
def joinComma : List Line → Line
  | [] => []
  | [t] => t
  | t :: r => t ++ ',' :: joinComma r

/-- C isdigit. -/
def isDig (c : Char) : Bool := 48 ≤ c.toNat && c.toNat ≤ 57

/-- C isxdigit. -/
def isHexDig (c : Char) : Bool :=
  isDig c || (97 ≤ c.toNat && c.toNat ≤ 102) || (65 ≤ c.toNat && c.toNat ≤ 70)

/-- C isspace: space and the control characters 9..13. -/
def isCSpace (c : Char) : Bool := c.toNat == 32 || (9 ≤ c.toNat && c.toNat ≤ 13)

/-- Octal digit. -/
def isOctDig (c : Char) : Bool := 48 ≤ c.toNat && c.toNat ≤ 55

/-- Numeric value of a decimal digit character. -/
def dvDec (c : Char) : Nat := c.toNat - 48

/-- Numeric value of a hexadecimal digit character. -/
def dvHex (c : Char) : Nat :=
  if isDig c then c.toNat - 48 else if 97 ≤ c.toNat then c.toNat - 87 else c.toNat - 55

/-- Accumulate the value of a digit run. -/
def digitsValue (base : Nat) (dv : Char → Nat) (ds : Line) : Nat :=
  ds.foldl (fun a c => a * base + dv c) 0

/-- strtoul clamps to ULONG_MAX on overflow. -/
def clamp64 (v : Nat) : Nat := if v ≥ M64 then M64 - 1 else v

/-- strtol clamps to LONG_MIN / LONG_MAX on overflow. -/
def clampLong (v : Int) : Int := max (-(2 ^ 63)) (min (2 ^ 63 - 1) v)

/-- Optional leading sign, as consumed by strtoul/strtol. -/
def sgnSplit (t1 : Line) : Bool × Line :=
  if t1.head? = some '-' then (true, t1.tail)
  else if t1.head? = some '+' then (false, t1.tail)
  else (false, t1)

/-- Result of a strtoul call: the value, the suffix after the last digit
    consumed, and whether any digits were consumed (end != start). -/
structure StrRes where
  value : Nat
  rest : Line
  consumed : Bool
deriving Repr, DecidableEq

/-- strtoul(s, &end, 10): skip C whitespace, optional sign, decimal digits.
    Unsigned wrap-around of a negated value modulo 2^64. -/
def strtoul10 (s : Line) : StrRes :=
  let t1 := s.dropWhile isCSpace
  let sg := sgnSplit t1
  let ds := sg.2.takeWhile isDig
  if ds.isEmpty then ⟨0, s, false⟩
  else
    let v := clamp64 (digitsValue 10 dvDec ds)
    ⟨if sg.1 then (M64 - v) % M64 else v, sg.2.dropWhile isDig, true⟩

/-- A "0x"/"0X" prefix is consumed by strtoul base 16 only when a hex digit
    follows it. -/
def hex0x (t2 : Line) : Line :=
  if t2.head? = some '0' ∧ (t2.tail.head? = some 'x' ∨ t2.tail.head? = some 'X') ∧
      Option.any isHexDig ((t2.drop 2).head?) = true then t2.drop 2 else t2

/-- strtoul(s, &end, 16): skip C whitespace, optional sign, optional 0x
    prefix, hex digits. -/
def strtoul16 (s : Line) : StrRes :=
  let t1 := s.dropWhile isCSpace
  let sg := sgnSplit t1
  let t3 := hex0x sg.2
  let ds := t3.takeWhile isHexDig
  if ds.isEmpty then ⟨0, s, false⟩
  else
    let v := clamp64 (digitsValue 16 dvHex ds)
    ⟨if sg.1 then (M64 - v) % M64 else v, t3.dropWhile isHexDig, true⟩

/-- parseImm from Tri.cxx: the `0x` branch calls strtoul base 16 on the text
    after the prefix and dies if no digits were consumed or a character
    remains; the decimal branch calls strtoul base 10 and dies only when no
    digits were consumed. The value is returned as C `unsigned`. -/
def parseImm (s : Line) : Option Nat :=
  if pfx ("0x".data) s then
    let r := strtoul16 (s.drop 2)
    if !r.consumed || !r.rest.isEmpty then none else some (r.value % M32)
  else
    let r := strtoul10 s
    if !r.consumed then none else some (r.value % M32)

/-- Apply an optional sign to a digit-run value. -/
def sgnApply (neg : Bool) (v : Nat) : Int := if neg then -(v : Int) else (v : Int)

/-- atoi(s) = (int)strtol(s, NULL, 10), read back as C unsigned 32-bit. -/
def atoiVal (s : Line) : Int :=
  let t1 := s.dropWhile isCSpace
  let sg := sgnSplit t1
  let ds := sg.2.takeWhile isDig
  if ds.isEmpty then 0
  else clampLong (sgnApply sg.1 (digitsValue 10 dvDec ds))

/-- atoi result converted through int to uint32_t (reduction modulo 2^32). -/
def atoiU32 (s : Line) : Nat := ((atoiVal s) % ((M32 : Nat) : Int)).toNat

/-- strtol(s, &end, 0): base detection (0x hex, leading 0 octal, else
    decimal); none when end == s (no digits consumed). -/
def strtol0 (s : Line) : Option Int :=
  let t1 := s.dropWhile isCSpace
  let sg := sgnSplit t1
  let t2 := sg.2
  if t2.head? = some '0' ∧ (t2.tail.head? = some 'x' ∨ t2.tail.head? = some 'X') ∧
      Option.any isHexDig ((t2.drop 2).head?) = true then
    some (clampLong (sgnApply sg.1 (digitsValue 16 dvHex ((t2.drop 2).takeWhile isHexDig))))
  else if t2.head? = some '0' then
    some (clampLong (sgnApply sg.1 (digitsValue 8 dvDec (t2.takeWhile isOctDig))))
  else
    let ds := t2.takeWhile isDig
    if ds.isEmpty then none
    else some (clampLong (sgnApply sg.1 (digitsValue 10 dvDec ds)))

/-- line_sz from Tri.cxx: the byte size Pass A assigns to an assembler line.
    none models the undefined call atoi(strtok(NULL,...)) when FILL has no
    count operand. -/
def line_sz (ln : Line) : Option Nat :=
  match tokenize ln with
  | [] => some 0
  | tok :: rest =>
    if lastIs tok ':' then some 0
    else if tok = ("ORG".data) then some 0
    else if tok = ("DB".data) then some rest.length
    else if tok = ("FILL".data) then
      match rest with
      | [] => none
      | n :: _ => some (atoiU32 n)
    else if tok = ("INT".data) then some 2
    else if tok = ("JMP".data) ∨ tok = ("CALL".data) then some 5
    else if tok = ("LJMP".data) then some 6
    else some 0

/-- Errors of the lowering pass (dieSrc calls), tagged with the source line. -/
inductive SErr where
  | ljmpArgs (i : Nat)
  | pgArgs (i : Nat)
  | smtArgs (i : Nat)
  | pbArgs (i : Nat)
  | scopeOverflow (i : Nat)
  | unmatchedClose (i : Nat)
  | borrow (i : Nat)
  | headRange (i : Nat)
  | sprintfOverflow (i : Nat)
  | overflow (i : Nat)
  | unclosed (i : Nat)
deriving Repr, DecidableEq

/-- State of pass1: the lowered lines with their source provenance, the
    current (topmost) borrow frame (bm, bi), and the stack of enclosing
    frames. sp in the C code equals outer.length. -/
structure P1St where
  asm1 : List (Line × Nat)
  cur : Bool × Bool
  outer : List (Bool × Bool)
deriving Repr, DecidableEq

/-- Append two lowered lines sharing one source line (the extension forms
    and the builtin tape_start). -/
def emitTwo (st : P1St) (i : Nat) (a b : Line) : P1St :=
  { st with asm1 := st.asm1 ++ [(a, i), (b, i)] }

/-- Append one lowered line. -/
def emitOne (st : P1St) (i : Nat) (a : Line) : P1St :=
  { st with asm1 := st.asm1 ++ [(a, i)] }

/-- The in-place sprintf rewrites of pass1: strip the final ')', drop the
    k-byte call prefix, and prepend the assembler mnemonic. -/
def rwLine (pre : Line) (k : Nat) (line : Line) : Line := pre ++ (line.dropLast.drop k)

/-- Builtins and fallback of pass1, after the scope and borrow checks:
    tape_start/load/store, head +=, org_set, and the verbatim copy. -/
def pass1RestB (st : P1St) (i : Nat) (line lower : Line) : Except SErr P1St :=
  if line = ("tape_start()".data) then
    if st.asm1.length + 2 ≥ 512 then .error (.overflow i)
    else .ok (emitTwo st i ("ORG 0x500".data) ("DB 0xBE,0x00,0x05".data))
  else if line = ("load()".data) then
    if st.asm1.length + 1 ≥ 512 then .error (.overflow i)
    else .ok (emitOne st i ("DB 0x8A,0x04".data))
  else if line = ("store()".data) then
    if st.asm1.length + 1 ≥ 512 then .error (.overflow i)
    else .ok (emitOne st i ("DB 0x88,0x04".data))
  else if pfx ("head +=".data) line then
    match strtol0 (line.drop 7) with
    | none => .error (.headRange i)
    | some v =>
      if v < 0 ∨ v > 255 then .error (.headRange i)
      else if (("DB 0x83,0xC6,".data) ++ Nat.toDigits 10 v.toNat).length ≥ 80 then
        .error (.sprintfOverflow i)
      else if st.asm1.length + 1 ≥ 512 then .error (.overflow i)
      else .ok (emitOne st i (("DB 0x83,0xC6,".data) ++ Nat.toDigits 10 v.toNat))
  else if pfx ("org_set(".data) lower && lastIs line ')' then
    .ok (emitTwo st i ("INT 0x05".data) (("DB ".data) ++ line.dropLast.drop 8))
  else if st.asm1.length ≥ 512 then .error (.overflow i)
  else .ok (emitOne st i line)

/-- Continuation of pass1 after the rewrite chain: scope and borrow lines,
    then the builtins and the fallback. `line` is the (possibly rewritten)
    line, `lower` the case-folded original. -/
def pass1Rest (st : P1St) (i : Nat) (line lower : Line) : Except SErr P1St :=
  if line = ['{'] then
    if st.outer.length + 1 ≥ 16 then .error (.scopeOverflow i)
    else .ok { st with cur := (false, false), outer := st.cur :: st.outer }
  else if line = ['}'] then
    match st.outer with
    | [] => .error (.unmatchedClose i)
    | f :: fs => .ok { st with cur := f, outer := fs }
  else if pfx ("let &mut".data) line then
    if st.cur.1 || st.cur.2 then .error (.borrow i)
    else .ok { st with cur := (true, st.cur.2) }
  else if pfx ("let &".data) line then
    if st.cur.1 then .error (.borrow i)
    else .ok { st with cur := (st.cur.1, true) }
  else
    pass1RestB st i line lower

/-- The two-line extension forms of pass1's rewrite chain (fold_mode through
    link_config). They emit directly with no capacity check, exactly as in
    the source; unmatched lines continue into pass1Rest. -/
def pass1StepExt (st : P1St) (i : Nat) (line0 lower : Line) : Except SErr P1St :=
  if pfx ("fold_mode(".data) lower && lastIs line0 ')' then
    .ok (emitTwo st i ("INT 0x01".data) (("DB ".data) ++ line0.dropLast.drop 10))
  else if pfx ("power_gate(".data) lower && lastIs line0 ')' then
    match splitComma (line0.dropLast.drop 11) with
    | none => .error (.pgArgs i)
    | some pq => .ok (emitTwo st i ("INT 0x02".data) (("DB ".data) ++ pq.1 ++ ',' :: trim pq.2))
  else if pfx ("bist_start(".data) lower && lastIs line0 ')' then
    .ok (emitTwo st i ("INT 0x10".data) (("DB ".data) ++ line0.dropLast.drop 11))
  else if pfx ("smt_weight(".data) lower && lastIs line0 ')' then
    match splitComma (line0.dropLast.drop 11) with
    | none => .error (.smtArgs i)
    | some pq => .ok (emitTwo st i ("INT 0x20".data) (("DB ".data) ++ pq.1 ++ ',' :: trim pq.2))
  else if pfx ("mme(".data) lower && lastIs line0 ')' then
    .ok (emitTwo st i ("INT 0x30".data) (("DB ".data) ++ line0.dropLast.drop 4))
  else if pfx ("patch_bank(".data) lower && lastIs line0 ')' then
    match splitComma (line0.dropLast.drop 11) with
    | none => .error (.pbArgs i)
    | some pq => .ok (emitTwo st i ("INT 0x03".data) (("DB ".data) ++ pq.1 ++ ',' :: trim pq.2))
  else if pfx ("patch_commit(".data) lower && lastIs line0 ')' then
    .ok (emitTwo st i ("INT 0x04".data) (("DB ".data) ++ line0.dropLast.drop 13))
  else if pfx ("perf_sample(".data) lower && lastIs line0 ')' then
    .ok (emitTwo st i ("INT 0x40".data) (("DB ".data) ++ line0.dropLast.drop 12))
  else if pfx ("link_config(".data) lower && lastIs line0 ')' then
    .ok (emitTwo st i ("INT 0x50".data) (("DB ".data) ++ line0.dropLast.drop 12))
  else
    pass1Rest st i line0 lower

/-- One source line of pass1: the case-folded rewrite chain (the seven
    in-place sprintf rewrites, then the extension forms), followed by the
    scope, borrow, builtin and fallback handling. -/
def pass1Step (st : P1St) (i : Nat) (raw : Line) : Except SErr P1St :=
  let line0 := trim raw
  let lower := line0.map Char.toLower
  if pfx ("org(".data) lower && lastIs line0 ')' then
    pass1Rest st i (rwLine ("ORG ".data) 4 line0) lower
  else if pfx ("db(".data) lower && lastIs line0 ')' then
    pass1Rest st i (rwLine ("DB ".data) 3 line0) lower
  else if pfx ("fill(".data) lower && lastIs line0 ')' then
    pass1Rest st i (rwLine ("FILL ".data) 5 line0) lower
  else if pfx ("int(".data) lower && lastIs line0 ')' then
    pass1Rest st i (rwLine ("INT ".data) 4 line0) lower
  else if pfx ("jmp(".data) lower && lastIs line0 ')' then
    pass1Rest st i (rwLine ("JMP ".data) 4 line0) lower
  else if pfx ("call(".data) lower && lastIs line0 ')' then
    pass1Rest st i (rwLine ("CALL ".data) 5 line0) lower
  else if pfx ("ljmp(".data) lower && lastIs line0 ')' then
    match splitComma (line0.dropLast.drop 5) with
    | none => .error (.ljmpArgs i)
    | some pq => pass1Rest st i (("LJMP ".data) ++ pq.1 ++ ':' :: pq.2) lower
  else
    pass1StepExt st i line0 lower

/-- Fold pass1Step over the source lines, numbering them from i. -/
def pass1Go (st : P1St) (i : Nat) : List Line → Except SErr P1St
  | [] => .ok st
  | l :: ls =>
    match pass1Step st i l with
    | .error e => .error e
    | .ok st2 => pass1Go st2 (i + 1) ls

/-- pass1 from Tri.cxx: lower every source line, then fail if any explicit
    scope is still open (sp != 0), citing the last source line. -/
def pass1 (srcLines : List Line) : Except SErr (List (Line × Nat)) :=
  match pass1Go ⟨[], (false, false), []⟩ 0 srcLines with
  | .error e => .error e
  | .ok st => if st.outer.length ≠ 0 then .error (.unclosed (srcLines.length - 1)) else .ok st.asm1

/-- Errors of the sizing pass (dieAsm calls), tagged with the asm line. -/
inductive AErr where
  | dupLabel (aidx : Nat)
  | tooManyLabels (aidx : Nat)
  | cloneOverflow (aidx : Nat)
  | ub (aidx : Nat)
deriving Repr, DecidableEq

/-- recordLabel from Tri.cxx: linear duplicate scan comparing the stored
    (already truncated) names against the full new name, capacity check,
    then store the name truncated to 15 bytes. -/
def recordLabel (tbl : List (Line × Nat)) (nm : Line) (pc : Nat) (aidx : Nat) :
    Except AErr (List (Line × Nat)) :=
  if tbl.any (fun e => decide (e.1 = nm)) then .error (.dupLabel aidx)
  else if tbl.length ≥ 128 then .error (.tooManyLabels aidx)
  else .ok (tbl ++ [(nm.take 15, pc)])

/-- find_lbl from Tri.cxx: address of the first table entry with this name. -/
def findLbl (tbl : List (Line × Nat)) (nm : Line) : Option Nat :=
  (tbl.find? (fun e => decide (e.1 = nm))).map (fun e => e.2)

/-- State of the Pass A walk: program counter and label table. -/
structure ASt where
  pc : Nat
  labels : List (Line × Nat)
deriving Repr, DecidableEq

/-- One line of the Pass A walk: a label-definition line records the label at
    the current PC and contributes no size; any other line advances PC by
    line_sz. -/
def passAStep (st : ASt) (i : Nat) (ln : Line) : Except AErr ASt :=
  match tokenize (trim ln) with
  | [] => .ok st
  | tok :: _ =>
    if lastIs tok ':' then
      match recordLabel st.labels tok.dropLast st.pc i with
      | .error e => .error e
      | .ok t => .ok ⟨st.pc, t⟩
    else
      match line_sz ln with
      | none => .error (.ub i)
      | some n => .ok ⟨(st.pc + n) % M32, st.labels⟩

/-- Fold passAStep over the assembler lines, numbering them from i. -/
def passAWalkFrom (st : ASt) (i : Nat) : List Line → Except AErr ASt
  | [] => .ok st
  | ln :: rest =>
    match passAStep st i ln with
    | .error e => .error e
    | .ok st2 => passAWalkFrom st2 (i + 1) rest

/-- The full Pass A walk starting from PC 0 and an empty label table. -/
def passAWalk (lns : List Line) : Except AErr ASt := passAWalkFrom ⟨0, []⟩ 0 lns

/-- The clone loop at the top of asm_passA: copy each asm1 line into lines2
    and record its asm1 index, checking ln2 against the cap before each
    append. The position in the result list is the C variable ln2. -/
def cloneFrom (cur : List (Line × Nat)) (i : Nat) : List Line → Except AErr (List (Line × Nat))
  | [] => .ok cur
  | ln :: rest =>
    if cur.length ≥ 512 then .error (.cloneOverflow i)
    else cloneFrom (cur ++ [(ln, i)]) (i + 1) rest

/-- asm_passA's clone of asm1 into lines2 with the lines2AsmIdx back-map. -/
def asm_passA_clone (asm1 : List Line) : Except AErr (List (Line × Nat)) :=
  cloneFrom [] 0 asm1

/-- Errors of the emission pass (dieAsm calls), tagged with the asm line. -/
inductive BErr where
  | immErr (aidx : Nat)
  | rangeErr (aidx : Nat)
  | undefLabel (aidx : Nat)
  | unknownDirective (aidx : Nat)
  | ub (aidx : Nat)
deriving Repr, DecidableEq

/-- State of the emission pass: the 32-bit PC, the output file position
    (established by the last fseek and the fputc calls since), and the
    sequence of (offset, byte) writes performed so far. -/
structure BSt where
  pc : Nat
  filePos : Nat
  outw : List (Nat × Nat)
deriving Repr, DecidableEq

/-- e32: four little-endian byte writes starting at file position fp. -/
def le32W (fp v : Nat) : List (Nat × Nat) :=
  [(fp, v % 256), (fp + 1, v / 256 % 256), (fp + 2, v / 65536 % 256), (fp + 3, v / 16777216 % 256)]

/-- e16: two little-endian byte writes starting at file position fp. -/
def le16W (fp v : Nat) : List (Nat × Nat) :=
  [(fp, v % 256), (fp + 1, v / 256 % 256)]

/-- The DB operand loop of asm_passB: parse each operand, range-check it,
    emit one byte, and advance PC. -/
def dbEmit (i : Nat) : Nat → Nat → List (Nat × Nat) → List Line → Except BErr BSt
  | pc, fp, w, [] => .ok ⟨pc, fp, w⟩
  | pc, fp, w, a :: rest =>
    match parseImm a with
    | none => .error (.immErr i)
    | some b =>
      if b > 255 then .error (.rangeErr i)
      else dbEmit i ((pc + 1) % M32) (fp + 1) (w ++ [(fp, b)]) rest

/-- The rel32 displacement (int32_t)dest - (int32_t)(pc+5) as an unsigned
    32-bit bit pattern, for dest < 2^32. -/
def rel32 (dest pc : Nat) : Nat := (dest + M32 - (pc + 5) % M32) % M32

/-- One line of asm_passB. Mirrors the directive dispatch of the source:
    ORG seeks, DB/FILL/INT emit immediates, JMP/CALL emit a relative
    displacement against the label table, LJMP emits far-pointer bytes,
    label definitions emit nothing, anything else is fatal. .ub marks the
    undefined calls the C code makes on a missing operand token. -/
def passBStep (lbls : List (Line × Nat)) (st : BSt) (i : Nat) (ln : Line) : Except BErr BSt :=
  match tokenize ln with
  | [] => .ok st
  | tok :: args =>
    if tok = ("ORG".data) then
      match args with
      | [] => .error (.ub i)
      | a :: _ =>
        match parseImm a with
        | none => .error (.immErr i)
        | some v => .ok ⟨v, v, st.outw⟩
    else if tok = ("DB".data) then
      dbEmit i st.pc st.filePos st.outw args
    else if tok = ("FILL".data) then
      match args with
      | [] => .error (.ub i)
      | a :: rest =>
        match parseImm a with
        | none => .error (.immErr i)
        | some cnt =>
          match rest with
          | [] => .error (.ub i)
          | b :: _ =>
            match parseImm b with
            | none => .error (.immErr i)
            | some val =>
              if val > 255 then .error (.rangeErr i)
              else .ok ⟨(st.pc + cnt) % M32, st.filePos + cnt,
                        st.outw ++ (List.range cnt).map (fun j => (st.filePos + j, val))⟩
    else if tok = ("INT".data) then
      match args with
      | [] => .error (.ub i)
      | a :: _ =>
        match parseImm a with
        | none => .error (.immErr i)
        | some imm =>
          if imm > 255 then .error (.rangeErr i)
          else .ok ⟨(st.pc + 2) % M32, st.filePos + 2,
                    st.outw ++ [(st.filePos, 205), (st.filePos + 1, imm)]⟩
    else if tok = ("JMP".data) ∨ tok = ("CALL".data) then
      let op : Nat := if tok.head? = some 'J' then 233 else 232
      match args with
      | [] => .error (.ub i)
      | a :: _ =>
        match findLbl lbls a with
        | none => .error (.undefLabel i)
        | some dest =>
          .ok ⟨(st.pc + 5) % M32, st.filePos + 5,
               st.outw ++ (st.filePos, op) :: le32W (st.filePos + 1) (rel32 dest st.pc)⟩
    else if tok = ("LJMP".data) then
      match args with
      | [] => .error (.ub i)
      | a :: _ =>
        if a.contains ':' then
          match parseImm (a.takeWhile (fun c => c != ':')) with
          | none => .error (.immErr i)
          | some off =>
            match parseImm ((a.dropWhile (fun c => c != ':')).tail) with
            | none => .error (.immErr i)
            | some sv =>
              .ok ⟨(st.pc + 6) % M32, st.filePos + 6,
                   st.outw ++ (st.filePos, 234) :: le32W (st.filePos + 1) off ++
                     le16W (st.filePos + 5) (sv % 65536)⟩
        else .error (.ub i)
    else if lastIs tok ':' then .ok st
    else .error (.unknownDirective i)

/-- Fold passBStep over the assembler lines, numbering them from i. -/
def passBRun (lbls : List (Line × Nat)) (st : BSt) (i : Nat) : List Line → Except BErr BSt
  | [] => .ok st
  | ln :: rest =>
    match passBStep lbls st i ln with
    | .error e => .error e
    | .ok st2 => passBRun lbls st2 (i + 1) rest

/-- A fatal diagnostic of any of the three passes. -/
inductive TErr where
  | p1 (e : SErr)
  | pa (e : AErr)
  | pb (e : BErr)
deriving Repr, DecidableEq

/-- The whole pipeline on retained source lines: pass1, the Pass A clone and
    walk, then Pass B; the result is the (offset, byte) writes to out.bin. -/
def translate (srcLines : List Line) : Except TErr (List (Nat × Nat)) :=
  match pass1 srcLines with
  | .error e => .error (.p1 e)
  | .ok asmPairs =>
    match asm_passA_clone (asmPairs.map (fun p => p.1)) with
    | .error e => .error (.pa e)
    | .ok l2 =>
      let texts := l2.map (fun p => p.1)
      match passAWalkFrom ⟨0, []⟩ 0 texts with
      | .error e => .error (.pa e)
      | .ok ast =>
        match passBRun ast.labels ⟨0, 0, []⟩ 0 texts with
        | .error e => .error (.pb e)
        | .ok bst => .ok bst.outw

/-- fgets(buf, n+1, f): read up to n characters, stopping after a newline;
    returns the chunk and the remaining stream. -/
def fgetsChunk : Nat → List Char → List Char × List Char
  | 0, s => ([], s)
  | _ + 1, [] => ([], [])
  | n + 1, c :: cs =>
    if c = '\n' then ([c], cs)
    else
      let r := fgetsChunk n cs
      (c :: r.1, r.2)

/-- Error of the source loader: the 512-line cap. -/
inductive RdErr where
  | tooMany
deriving Repr, DecidableEq

/-- The fgets loop of read_src, with fuel (each fgets on a nonempty stream
    consumes at least one character, so contents.length + 1 fuel suffices). -/
def readLoop : Nat → List Char → List Line → Except RdErr (List Line)
  | _, [], acc => .ok acc
  | 0, _ :: _, acc => .ok acc
  | fuel + 1, c :: cs, acc =>
    let r := fgetsChunk 79 (c :: cs)
    let t := trim r.1
    if t ≠ [] ∧ t.head? ≠ some ';' then
      if acc.length ≥ 512 then .error .tooMany
      else readLoop fuel r.2 (acc ++ [t])
    else readLoop fuel r.2 acc

/-- read_src from Tri.cxx on the contents of the source file: repeated
    79-character fgets reads, trimming, and dropping blank and comment
    lines, with the 512-line cap. -/
def read_src (contents : List Char) : Except RdErr (List Line) :=
  readLoop (contents.length + 1) contents []

/-- The lowered lines produced by n consecutive fold_mode(0) source lines
    starting at source index i. -/
def fmPairs : Nat → Nat → List (Line × Nat)
  | 0, _ => []
  | n + 1, i => (("INT 0x01".data), i) :: (("DB 0".data), i) :: fmPairs n (i + 1)

/-- The (offset, byte) writes a DB line with the given operand strings
    performs, starting at file position fp. -/
def dbWrites : Nat → List Line → List (Nat × Nat)
  | _, [] => []
  | fp, t :: ts => (fp, (parseImm t).getD 0) :: dbWrites (fp + 1) ts

/-- A list of lines paired with consecutive indices starting at i: the shape
    asm_passA's clone loop gives lines2 and lines2AsmIdx. -/
def idxFrom (i : Nat) : List Line → List (Line × Nat)
  | [] => []
  | l :: ls => (l, i) :: idxFrom (i + 1) ls

end Tri

namespace Tri

/-- Helper: lowering a fold_mode(0) line appends its two assembler lines with
    no capacity check, leaving the borrow state untouched. -/
theorem pass1Step_foldMode (st : P1St) (i : Nat) :
    pass1Step st i ("fold_mode(0)".data) =
      .ok (emitTwo st i ("INT 0x01".data) ("DB 0".data)) := rfl

/-- Helper: pass1Go over n fold_mode(0) lines appends the 2n lowered lines. -/
theorem pass1Go_foldMode (n : Nat) : ∀ (st : P1St) (i : Nat),
    pass1Go st i (List.replicate n ("fold_mode(0)".data)) =
      .ok ⟨st.asm1 ++ fmPairs n i, st.cur, st.outer⟩ := by
  induction n with
  | zero => intro st i; simp [pass1Go, fmPairs]
  | succ m ih =>
    intro st i
    rw [List.replicate_succ]
    show pass1Go st i (("fold_mode(0)".data) :: List.replicate m ("fold_mode(0)".data)) = _
    rw [pass1Go, pass1Step_foldMode]
    show pass1Go (emitTwo st i ("INT 0x01".data) ("DB 0".data)) (i + 1) _ = _
    rw [ih]
    simp [emitTwo, fmPairs]

/-- Helper: the lowered stream of n fold_mode(0) lines has 2n lines. -/
theorem fmPairs_length (i : Nat) : ∀ n, (fmPairs n i).length = 2 * n := by
  intro n
  induction n generalizing i with
  | zero => simp [fmPairs]
  | succ m ih => simp [fmPairs, ih]; omega

end Tri

namespace Tri

/-- C1. The label-stability invariant is violated by the code: on the accepted
    program org(0x10) / L: / jmp(L), the loader retains the three lines, the
    pipeline runs to completion, yet Pass A records label L at PC 0 (line_sz
    gives ORG size 0 and the sizing walk never assigns PC from ORG) while
    Pass B's PC on reaching the same line is 0x10, so the two passes disagree
    at the label's definition point and the emitted JMP displacement targets
    address 0 instead of L's emitted location. -/
theorem C1_label_stability_bug :
    read_src (("org(0x10)\nL:\njmp(L)\n").data) =
      .ok [("org(0x10)".data), ("L:".data), ("jmp(L)".data)]
    ∧ pass1 [("org(0x10)".data), ("L:".data), ("jmp(L)".data)] =
        .ok [(("ORG 0x10".data), 0), (("L:".data), 1), (("JMP L".data), 2)]
    ∧ passAWalk [("ORG 0x10".data), ("L:".data), ("JMP L".data)] =
        .ok ⟨5, [(("L".data), 0)]⟩
    ∧ passBRun [(("L".data), 0)] ⟨0, 0, []⟩ 0 [("ORG 0x10".data)] = .ok ⟨16, 16, []⟩
    ∧ translate [("org(0x10)".data), ("L:".data), ("jmp(L)".data)] =
        .ok [(16, 233), (17, 235), (18, 255), (19, 255), (20, 255)]
    ∧ (0 : Nat) ≠ 16 := by
  exact ⟨rfl, rfl, rfl, rfl, rfl, by decide⟩

/-- C2 counterexample. The claim says any trailing non-digit character in a
    decimal operand is a fatal malformed-immediate error; but parseImm accepts
    the operand 12x (whose final character is not a digit) with value 12,
    because the decimal branch never inspects the end pointer's character. -/
theorem C2_counterexample :
    parseImm ("12x".data) = some 12 ∧ isDig 'x' = false := by decide

/-- C4 counterexample. The claim says a raw line longer than 79 bytes is
    truncated to a single retained line; but read_src on a 100-character raw
    line retains two lines (the first 79 characters and then the remaining
    21), because fgets resumes reading the same raw line. -/
theorem C4_counterexample :
    read_src ((List.replicate 100 'a') ++ ['\n']) =
      .ok [List.replicate 79 'a', List.replicate 21 'a'] := rfl

/-- C8 counterexample. The claim says defining a label whose (up-to-15-byte)
    name equals an already-recorded label's name is a fatal duplicate-label
    error; but the duplicate scan compares the untruncated new name against
    the stored truncated names, so the two distinct 16-byte labels below are
    both recorded under the same 15-byte stored name with no error. -/
theorem C8_counterexample :
    passAWalk [("abcdefghijklmnop:".data), ("abcdefghijklmnoq:".data)] =
      .ok ⟨0, [(("abcdefghijklmno".data), 0), (("abcdefghijklmno".data), 0)]⟩
    ∧ ("abcdefghijklmnop".data) ≠ ("abcdefghijklmnoq".data) := by
  exact ⟨rfl, by decide⟩

/-- C9. The lowered-sequence cap is not enforced on the extension forms: the
    fold_mode branch (like the other INT+DB extension rewrites) appends two
    lines with no capacity check, so 257 fold_mode(0) source lines lower
    without any diagnostic to a 514-line stream, exceeding the 512-line cap
    (an out-of-bounds write in the C code). -/
theorem C9_capacity_bug :
    pass1 (List.replicate 257 ("fold_mode(0)".data)) = .ok (fmPairs 257 0)
    ∧ (fmPairs 257 0).length = 514 := by
  constructor
  · show pass1 _ = _
    rw [pass1, pass1Go_foldMode]
    simp
  · rw [fmPairs_length]

end Tri

namespace Tri

/-- Helper: idxFrom preserves length. -/
theorem idxFrom_length (ls : List Line) : ∀ i, (idxFrom i ls).length = ls.length := by
  induction ls with
  | nil => intro i; rfl
  | cons l t ih => intro i; simp [idxFrom, ih]

/-- Helper: the j-th entry of idxFrom i ls is the j-th line paired with i+j. -/
theorem idxFrom_get (ls : List Line) : ∀ i j (hj : j < (idxFrom i ls).length)
    (hj2 : j < ls.length), (idxFrom i ls).get ⟨j, hj⟩ = (ls.get ⟨j, hj2⟩, i + j) := by
  induction ls with
  | nil => intro i j hj hj2; exact absurd hj2 (by simp)
  | cons l t ih =>
    intro i j hj hj2
    cases j with
    | zero => rfl
    | succ k =>
      have hk2 : k < t.length := by simp at hj2; omega
      have hk : k < (idxFrom (i + 1) t).length := by rw [idxFrom_length]; exact hk2
      have hstep : (idxFrom i (l :: t)).get ⟨k + 1, hj⟩ = (idxFrom (i + 1) t).get ⟨k, hk⟩ := rfl
      rw [hstep, ih (i + 1) k hk hk2]
      have : (l :: t).get ⟨k + 1, hj2⟩ = t.get ⟨k, hk2⟩ := rfl
      rw [this]
      have : i + 1 + k = i + (k + 1) := by omega
      rw [this]

/-- Helper: the clone loop succeeds and appends the identity enumeration when
    the cap is not hit. -/
theorem cloneFrom_ok (ls : List Line) : ∀ (cur : List (Line × Nat)) (i : Nat),
    cur.length + ls.length ≤ 512 →
    cloneFrom cur i ls = .ok (cur ++ idxFrom i ls) := by
  induction ls with
  | nil => intro cur i _; simp [cloneFrom, idxFrom]
  | cons l t ih =>
    intro cur i h
    have hlt : ¬ cur.length ≥ 512 := by simp at h ⊢; omega
    rw [cloneFrom]
    simp only [hlt, if_false]
    rw [ih (cur ++ [(l, i)]) (i + 1) (by simp at h ⊢; omega)]
    simp [idxFrom]

/-- Helper: membership in the lines appended by emitOne. -/
theorem mem_emitOne (st : P1St) (i : Nat) (a : Line) (p : Line × Nat)
    (hp : p ∈ (emitOne st i a).asm1) : p ∈ st.asm1 ∨ p.2 = i := by
  simp [emitOne] at hp
  rcases hp with hp | hp
  · exact Or.inl hp
  · exact Or.inr (by rw [hp])

/-- Helper: membership in the lines appended by emitTwo. -/
theorem mem_emitTwo (st : P1St) (i : Nat) (a b : Line) (p : Line × Nat)
    (hp : p ∈ (emitTwo st i a b).asm1) : p ∈ st.asm1 ∨ p.2 = i := by
  simp [emitTwo] at hp
  rcases hp with hp | hp | hp
  · exact Or.inl hp
  · exact Or.inr (by rw [hp])
  · exact Or.inr (by rw [hp])

/-- Helper: a successful pass1RestB only appends lines tagged with i. -/
theorem pass1RestB_mem (st : P1St) (i : Nat) (line lower : Line) (st2 : P1St)
    (h : pass1RestB st i line lower = .ok st2) :
    ∀ p ∈ st2.asm1, p ∈ st.asm1 ∨ p.2 = i := by
  unfold pass1RestB at h
  repeat' split at h
  all_goals first
    | (simp at h; done)
    | (subst h; exact fun p hp => Or.inl hp)
    | (subst h; exact fun p hp => mem_emitOne _ _ _ p hp)
    | (subst h; exact fun p hp => mem_emitTwo _ _ _ _ p hp)
    | (injection h with h2; subst h2; exact fun p hp => Or.inl hp)
    | (injection h with h2; subst h2; exact fun p hp => mem_emitOne _ _ _ p hp)
    | (injection h with h2; subst h2; exact fun p hp => mem_emitTwo _ _ _ _ p hp)

/-- Helper: a successful pass1Rest only appends lines tagged with i. -/
theorem pass1Rest_mem (st : P1St) (i : Nat) (line lower : Line) (st2 : P1St)
    (h : pass1Rest st i line lower = .ok st2) :
    ∀ p ∈ st2.asm1, p ∈ st.asm1 ∨ p.2 = i := by
  unfold pass1Rest at h
  repeat' split at h
  all_goals first
    | (simp at h; done)
    | exact pass1RestB_mem _ _ _ _ _ h
    | (subst h; exact fun p hp => Or.inl hp)
    | (injection h with h2; subst h2; exact fun p hp => Or.inl hp)

/-- Helper: a successful extension-form dispatch only appends lines tagged
    with i. -/
theorem pass1StepExt_mem (st : P1St) (i : Nat) (line0 lower : Line) (st2 : P1St)
    (h : pass1StepExt st i line0 lower = .ok st2) :
    ∀ p ∈ st2.asm1, p ∈ st.asm1 ∨ p.2 = i := by
  unfold pass1StepExt at h
  repeat' split at h
  all_goals first
    | (simp at h; done)
    | exact pass1Rest_mem _ _ _ _ _ h
    | (subst h; exact fun p hp => mem_emitTwo _ _ _ _ p hp)
    | (injection h with h2; subst h2; exact fun p hp => mem_emitTwo _ _ _ _ p hp)

/-- Helper: a successful pass1Step only appends lowered lines tagged with the
    current source index. -/
theorem pass1Step_mem (st : P1St) (i : Nat) (raw : Line) (st2 : P1St)
    (h : pass1Step st i raw = .ok st2) :
    ∀ p ∈ st2.asm1, p ∈ st.asm1 ∨ p.2 = i := by
  simp only [pass1Step] at h
  repeat' split at h
  all_goals first
    | (simp at h; done)
    | exact pass1Rest_mem _ _ _ _ _ h
    | exact pass1StepExt_mem _ _ _ _ _ h

/-- Helper: pass1Go keeps every provenance index below the number of lines
    consumed so far. -/
theorem pass1Go_src (ls : List Line) : ∀ (st : P1St) (i : Nat) (st2 : P1St),
    pass1Go st i ls = .ok st2 → (∀ p ∈ st.asm1, p.2 < i) →
    ∀ p ∈ st2.asm1, p.2 < i + ls.length := by
  induction ls with
  | nil =>
    intro st i st2 h hinv p hp
    simp [pass1Go] at h
    subst h
    have := hinv p hp
    omega
  | cons l t ih =>
    intro st i st2 h hinv p hp
    rw [pass1Go] at h
    rcases hmid : pass1Step st i l with e | mid
    · rw [hmid] at h; simp at h
    · rw [hmid] at h
      have hmidinv : ∀ q ∈ mid.asm1, q.2 < i + 1 := by
        intro q hq
        rcases pass1Step_mem st i l mid hmid q hq with hq1 | hq2
        · have := hinv q hq1; omega
        · omega
      have := ih mid (i + 1) st2 h hmidinv p hp
      simp only [List.length_cons]
      omega

end Tri

namespace Tri

/-- C10. The Pass A clone is the identity: for any lowered stream within the
    512-line cap, the assembler-line stream it produces has the same length,
    equal text at every index, and a back-index lines2AsmIdx that is the
    identity map; moreover every provenance index pass1 stores is a valid
    source index, so the emitter's diagnostics resolve through asmSrcLine to
    a retained source line. -/
theorem C10_identity_clone (texts : List Line) (hlen : texts.length ≤ 512) :
    asm_passA_clone texts = .ok (idxFrom 0 texts)
    ∧ (idxFrom 0 texts).length = texts.length
    ∧ (∀ j (hj : j < (idxFrom 0 texts).length) (hj2 : j < texts.length),
        (idxFrom 0 texts).get ⟨j, hj⟩ = (texts.get ⟨j, hj2⟩, j))
    ∧ (∀ (src : List Line) (asmPairs : List (Line × Nat)),
        pass1 src = .ok asmPairs → ∀ p ∈ asmPairs, p.2 < src.length) := by
  refine ⟨?_, idxFrom_length texts 0, ?_, ?_⟩
  · have := cloneFrom_ok texts [] 0 (by simpa using hlen)
    simpa [asm_passA_clone] using this
  · intro j hj hj2
    have := idxFrom_get texts 0 j hj hj2
    simpa using this
  · intro src asmPairs h p hp
    unfold pass1 at h
    rcases hgo : pass1Go ⟨[], (false, false), []⟩ 0 src with e | stEnd
    · rw [hgo] at h; simp at h
    · rw [hgo] at h
      dsimp only [] at h
      by_cases houter : stEnd.outer.length ≠ 0
      · rw [if_pos houter] at h; simp at h
      · rw [if_neg houter] at h
        injection h with h2
        subst h2
        have := pass1Go_src src ⟨[], (false, false), []⟩ 0 stEnd hgo (by simp) p hp
        simpa using this

/-- Witness for C10 at a concrete one-line stream. -/
theorem C10_witness :
    asm_passA_clone [("DB 1".data)] = .ok (idxFrom 0 [("DB 1".data)])
    ∧ (idxFrom 0 [("DB 1".data)]).length = 1 := by
  have h := C10_identity_clone [("DB 1".data)] (by decide)
  exact ⟨h.1, h.2.1⟩

end Tri

namespace Tri

/-- Helper: dispatch of a line whose trim is exactly the open brace. -/
theorem pass1Step_openBrace (st : P1St) (i : Nat) (raw : Line) (h : trim raw = ['{']) :
    pass1Step st i raw =
      (if st.outer.length + 1 ≥ 16 then .error (.scopeOverflow i)
       else .ok { st with cur := (false, false), outer := st.cur :: st.outer }) := by
  unfold pass1Step
  rw [h]
  rfl

/-- Helper: dispatch of a line whose trim is exactly the close brace. -/
theorem pass1Step_closeBrace (st : P1St) (i : Nat) (raw : Line) (h : trim raw = ['}']) :
    pass1Step st i raw =
      (match st.outer with
       | [] => .error (.unmatchedClose i)
       | f :: fs => .ok { st with cur := f, outer := fs }) := by
  unfold pass1Step
  rw [h]
  rfl

/-- C6. Scope-stack invariant: a line that is exactly an open brace pushes a
    fresh {false,false} borrow frame, failing when the depth counting the
    implicit outermost frame would exceed 16; a line that is exactly a close
    brace fails when no explicit frame is open and otherwise pops, restoring
    the enclosing frame's flags unchanged; and when the lowering loop ends
    with an explicit scope still open, pass1 fails with the unclosed-scope
    diagnostic on the last source line. -/
theorem C6_scope_stack (st : P1St) (i : Nat) (raw : Line) :
    ((trim raw = ['{']) →
      ((st.outer.length + 1 ≥ 16 → pass1Step st i raw = .error (.scopeOverflow i)) ∧
       (st.outer.length + 1 < 16 →
         pass1Step st i raw = .ok { st with cur := (false, false), outer := st.cur :: st.outer })))
    ∧ ((trim raw = ['}']) →
      ((st.outer = [] → pass1Step st i raw = .error (.unmatchedClose i)) ∧
       (∀ f fs, st.outer = f :: fs → pass1Step st i raw = .ok { st with cur := f, outer := fs })))
    ∧ (∀ (src : List Line) (stEnd : P1St),
        pass1Go ⟨[], (false, false), []⟩ 0 src = .ok stEnd → stEnd.outer ≠ [] →
        pass1 src = .error (.unclosed (src.length - 1))) := by
  refine ⟨?_, ?_, ?_⟩
  · intro h
    constructor
    · intro hd
      rw [pass1Step_openBrace st i raw h, if_pos hd]
    · intro hd
      rw [pass1Step_openBrace st i raw h, if_neg (by omega)]
  · intro h
    constructor
    · intro hout
      rw [pass1Step_closeBrace st i raw h, hout]
    · intro f fs hout
      rw [pass1Step_closeBrace st i raw h, hout]
  · intro src stEnd hgo hopen
    unfold pass1
    rw [hgo]
    dsimp only []
    rw [if_pos (by simpa using hopen)]

/-- Witness for C6 at concrete states: a push at depth 1, a blocked push at
    depth 15 (16 counting the implicit frame), a pop, an unmatched close, and
    the end-of-input unclosed-scope error. -/
theorem C6_witness :
    pass1Step ⟨[], (true, false), []⟩ 0 (['{']) =
      .ok ⟨[], (false, false), [(true, false)]⟩
    ∧ pass1Step ⟨[], (false, false), List.replicate 15 (false, false)⟩ 0 (['{']) =
      .error (.scopeOverflow 0)
    ∧ pass1Step ⟨[], (false, false), [(true, true)]⟩ 3 (['}']) =
      .ok ⟨[], (true, true), []⟩
    ∧ pass1Step ⟨[], (false, false), []⟩ 2 (['}']) = .error (.unmatchedClose 2)
    ∧ pass1 [['{']] = .error (.unclosed 0) := by
  refine ⟨?_, ?_, ?_, ?_, ?_⟩
  · exact ((C6_scope_stack ⟨[], (true, false), []⟩ 0 (['{'])).1 (by decide)).2 (by decide)
  · exact ((C6_scope_stack ⟨[], (false, false), List.replicate 15 (false, false)⟩ 0
      (['{'])).1 (by decide)).1 (by decide)
  · exact (((C6_scope_stack ⟨[], (false, false), [(true, true)]⟩ 3 (['}'])).2.1 (by decide)).2
      (true, true) [] rfl)
  · exact (((C6_scope_stack ⟨[], (false, false), []⟩ 2 (['}'])).2.1 (by decide)).1 rfl)
  · exact ((C6_scope_stack ⟨[], (false, false), []⟩ 0 (['{'])).2.2 [['{']]
      ⟨[], (false, false), [(false, false)]⟩ rfl (by decide))

end Tri

namespace Tri

/-- Helper: a trimmed line starting with the five characters of a borrow
    declaration is untouched by the rewrite chain and reaches the scope,
    borrow and builtin dispatch. -/
theorem pass1Step_letLine (st : P1St) (i : Nat) (raw rest : Line)
    (h : trim raw = 'l' :: 'e' :: 't' :: ' ' :: '&' :: rest) :
    pass1Step st i raw =
      pass1Rest st i ('l' :: 'e' :: 't' :: ' ' :: '&' :: rest)
        ('l' :: 'e' :: 't' :: ' ' :: '&' :: (rest.map Char.toLower)) := by
  unfold pass1Step
  rw [h]
  rfl

/-- C5. Borrow discipline: a line whose trim is `let &mut …` is a fatal
    borrow error when the current frame has any outstanding borrow and
    otherwise sets the frame's mut_borrowed flag; a line whose trim is
    `let & …` but not `let &mut …` is a fatal borrow error when the current
    frame has an outstanding mutable borrow and otherwise sets the
    imm_borrowed flag; in both non-error cases no assembler line is
    emitted (asm1 is unchanged). -/
theorem C5_borrow_discipline (st : P1St) (i : Nat) (raw : Line) (rest : Line) :
    ((trim raw = 'l' :: 'e' :: 't' :: ' ' :: '&' :: 'm' :: 'u' :: 't' :: rest) →
      ((st.cur.1 = true ∨ st.cur.2 = true → pass1Step st i raw = .error (.borrow i)) ∧
       (st.cur.1 = false → st.cur.2 = false →
         pass1Step st i raw = .ok { st with cur := (true, false) })))
    ∧ ((trim raw = 'l' :: 'e' :: 't' :: ' ' :: '&' :: rest) →
       pfx ('m' :: 'u' :: 't' :: []) rest = false →
      ((st.cur.1 = true → pass1Step st i raw = .error (.borrow i)) ∧
       (st.cur.1 = false → pass1Step st i raw = .ok { st with cur := (false, true) }))) := by
  constructor
  · intro h
    have hstep := pass1Step_letLine st i raw ('m' :: 'u' :: 't' :: rest) h
    have hr : pass1Rest st i ('l' :: 'e' :: 't' :: ' ' :: '&' :: 'm' :: 'u' :: 't' :: rest)
        ('l' :: 'e' :: 't' :: ' ' :: '&' :: (('m' :: 'u' :: 't' :: rest).map Char.toLower)) =
        (if st.cur.1 || st.cur.2 then .error (.borrow i)
         else .ok { st with cur := (true, st.cur.2) }) := rfl
    constructor
    · intro hb
      rw [hstep, hr, if_pos (by rcases hb with hb | hb <;> simp [hb])]
    · intro h1 h2
      rw [hstep, hr, if_neg (by simp [h1, h2]), h2]
  · intro h hm
    have hstep := pass1Step_letLine st i raw rest h
    have hmut : pfx ("let &mut".data) ('l' :: 'e' :: 't' :: ' ' :: '&' :: rest) =
        pfx ('m' :: 'u' :: 't' :: []) rest := rfl
    have hamp : pfx ("let &".data) ('l' :: 'e' :: 't' :: ' ' :: '&' :: rest) = true := rfl
    have hr : pass1Rest st i ('l' :: 'e' :: 't' :: ' ' :: '&' :: rest)
        ('l' :: 'e' :: 't' :: ' ' :: '&' :: (rest.map Char.toLower)) =
        (if st.cur.1 then .error (.borrow i)
         else .ok { st with cur := (st.cur.1, true) }) := by
      unfold pass1Rest
      rw [if_neg (by simp), if_neg (by simp)]
      rw [hmut, hm]
      simp only [Bool.false_eq_true, if_false]
      rw [hamp]
      simp
    constructor
    · intro h1
      rw [hstep, hr, if_pos h1]
    · intro h1
      rw [hstep, hr, if_neg (by simp [h1]), h1]

/-- Witness for C5: a double mutable borrow errors; a first mutable borrow
    sets the flag; an immutable borrow after a mutable one errors; an
    immutable borrow in a clean frame sets the flag. -/
theorem C5_witness :
    pass1Step ⟨[], (true, false), []⟩ 1 (("let &mut x".data)) = .error (.borrow 1)
    ∧ pass1Step ⟨[], (false, false), []⟩ 0 (("let &mut x".data)) =
        .ok ⟨[], (true, false), []⟩
    ∧ pass1Step ⟨[], (true, false), []⟩ 2 (("let & y".data)) = .error (.borrow 2)
    ∧ pass1Step ⟨[], (false, true), []⟩ 0 (("let & y".data)) =
        .ok ⟨[], (false, true), []⟩ := by
  refine ⟨?_, ?_, ?_, ?_⟩
  · exact ((C5_borrow_discipline ⟨[], (true, false), []⟩ 1 (("let &mut x".data))
      (' ' :: 'x' :: [])).1 rfl).1 (Or.inl rfl)
  · exact ((C5_borrow_discipline ⟨[], (false, false), []⟩ 0 (("let &mut x".data))
      (' ' :: 'x' :: [])).1 rfl).2 rfl rfl
  · exact ((C5_borrow_discipline ⟨[], (true, false), []⟩ 2 (("let & y".data))
      (' ' :: 'y' :: [])).2 rfl (by decide)).1 rfl
  · exact ((C5_borrow_discipline ⟨[], (false, true), []⟩ 0 (("let & y".data))
      (' ' :: 'y' :: [])).2 rfl (by decide)).2 rfl

end Tri

namespace Tri

/-- Helper: splitAcc always returns at least one piece. -/
theorem splitAcc_ne_nil (s : Line) : splitAcc s ≠ [] := by
  induction s with
  | nil => simp [splitAcc]
  | cons c t ih =>
    show (if isDelim c then [] :: splitAcc t
          else (c :: (splitAcc t).headD []) :: (splitAcc t).tail) ≠ []
    split <;> simp

/-- Helper: a nonempty list equals its default head consed on its tail. -/
theorem headD_cons_tail {α : Type} (l : List α) (d : α) (h : l ≠ []) :
    l.headD d :: l.tail = l := by
  cases l with
  | nil => exact absurd rfl h
  | cons a t => rfl

/-- Helper: a delimiter-free prefix is absorbed into the first piece. -/
theorem splitAcc_append_token (t : Line) : ∀ (u : Line), (∀ c ∈ t, isDelim c = false) →
    splitAcc (t ++ u) = (t ++ (splitAcc u).headD []) :: (splitAcc u).tail := by
  induction t with
  | nil =>
    intro u _
    simpa using (headD_cons_tail (splitAcc u) [] (splitAcc_ne_nil u)).symm
  | cons c t2 ih =>
    intro u hc
    have hcd : isDelim c = false := hc c (by simp)
    show (if isDelim c then [] :: splitAcc (t2 ++ u)
          else (c :: (splitAcc (t2 ++ u)).headD []) :: (splitAcc (t2 ++ u)).tail) = _
    rw [if_neg (by simp [hcd])]
    rw [ih u (fun d hd => hc d (by simp [hd]))]
    rfl

/-- Helper: a delimiter-free nonempty string is a single token. -/
theorem splitAcc_token (t : Line) (hne : t ≠ []) (hd : ∀ c ∈ t, isDelim c = false) :
    splitAcc t = [t] := by
  have := splitAcc_append_token t [] hd
  simpa [splitAcc] using this

/-- Helper: tokenize of a delimiter-free nonempty string. -/
theorem tokenize_token (t : Line) (hne : t ≠ []) (hd : ∀ c ∈ t, isDelim c = false) :
    tokenize t = [t] := by
  unfold tokenize
  rw [splitAcc_token t hne hd]
  simp [hne]

/-- Helper: tokens of a JMP line with a delimiter-free operand. -/
theorem tokenize_jmp (nm : Line) (hne : nm ≠ []) (hd : ∀ c ∈ nm, isDelim c = false) :
    tokenize ('J' :: 'M' :: 'P' :: ' ' :: nm) = [("JMP".data), nm] := by
  unfold tokenize
  have h1 : ('J' :: 'M' :: 'P' :: ' ' :: nm : Line) = ('J' :: 'M' :: 'P' :: []) ++ (' ' :: nm) := rfl
  rw [h1, splitAcc_append_token ('J' :: 'M' :: 'P' :: []) (' ' :: nm) (by decide)]
  have h2 : splitAcc (' ' :: nm) = [] :: splitAcc nm := rfl
  rw [h2, splitAcc_token nm hne hd]
  simp [hne]

/-- Helper: tokens of a CALL line with a delimiter-free operand. -/
theorem tokenize_call (nm : Line) (hne : nm ≠ []) (hd : ∀ c ∈ nm, isDelim c = false) :
    tokenize ('C' :: 'A' :: 'L' :: 'L' :: ' ' :: nm) = [("CALL".data), nm] := by
  unfold tokenize
  have h1 : ('C' :: 'A' :: 'L' :: 'L' :: ' ' :: nm : Line) =
      ('C' :: 'A' :: 'L' :: 'L' :: []) ++ (' ' :: nm) := rfl
  rw [h1, splitAcc_append_token ('C' :: 'A' :: 'L' :: 'L' :: []) (' ' :: nm) (by decide)]
  have h2 : splitAcc (' ' :: nm) = [] :: splitAcc nm := rfl
  rw [h2, splitAcc_token nm hne hd]
  simp [hne]

/-- C3. Relative-jump encoding: for a JMP (resp. CALL) whose label operand is
    recorded in the table at address dest, the emitter writes opcode 0xE9
    (resp. 0xE8) at the current file position followed by the 32-bit
    little-endian displacement rel32 dest pc, the displacement is a 32-bit
    value, and dest = (PC after the 5-byte instruction) + displacement
    modulo 2^32. -/
theorem C3_jmp_call_rel32 (lbls : List (Line × Nat)) (nm : Line) (dest : Nat)
    (st : BSt) (i : Nat)
    (hne : nm ≠ []) (hdelim : ∀ c ∈ nm, isDelim c = false)
    (hf : findLbl lbls nm = some dest)
    (hpc : st.pc < M32) (hdest : dest < M32) :
    passBStep lbls st i ('J' :: 'M' :: 'P' :: ' ' :: nm) =
      .ok ⟨(st.pc + 5) % M32, st.filePos + 5,
           st.outw ++ (st.filePos, 233) :: le32W (st.filePos + 1) (rel32 dest st.pc)⟩
    ∧ passBStep lbls st i ('C' :: 'A' :: 'L' :: 'L' :: ' ' :: nm) =
      .ok ⟨(st.pc + 5) % M32, st.filePos + 5,
           st.outw ++ (st.filePos, 232) :: le32W (st.filePos + 1) (rel32 dest st.pc)⟩
    ∧ rel32 dest st.pc < M32
    ∧ dest = ((st.pc + 5) + rel32 dest st.pc) % M32 := by
  refine ⟨?_, ?_, ?_, ?_⟩
  · unfold passBStep
    rw [tokenize_jmp nm hne hdelim]
    show (match findLbl lbls nm with
          | none => Except.error (BErr.undefLabel i)
          | some d => Except.ok (BSt.mk ((st.pc + 5) % M32) (st.filePos + 5)
              (st.outw ++ (st.filePos, 233) :: le32W (st.filePos + 1) (rel32 d st.pc)))) = _
    rw [hf]
  · unfold passBStep
    rw [tokenize_call nm hne hdelim]
    show (match findLbl lbls nm with
          | none => Except.error (BErr.undefLabel i)
          | some d => Except.ok (BSt.mk ((st.pc + 5) % M32) (st.filePos + 5)
              (st.outw ++ (st.filePos, 232) :: le32W (st.filePos + 1) (rel32 d st.pc)))) = _
    rw [hf]
  · unfold rel32 M32
    omega
  · unfold rel32 M32
    unfold M32 at hpc hdest
    omega

/-- Witness for C3 at label L defined at 0, PC 0 (the spec's scenario 2:
    E9 FB FF FF FF, displacement -5). -/
theorem C3_witness :
    passBStep [(('L' :: []), 0)] ⟨0, 0, []⟩ 0 ('J' :: 'M' :: 'P' :: ' ' :: 'L' :: []) =
      .ok ⟨5, 5, [(0, 233), (1, 251), (2, 255), (3, 255), (4, 255)]⟩
    ∧ passBStep [(('L' :: []), 0)] ⟨0, 0, []⟩ 0 ('C' :: 'A' :: 'L' :: 'L' :: ' ' :: 'L' :: []) =
      .ok ⟨5, 5, [(0, 232), (1, 251), (2, 255), (3, 255), (4, 255)]⟩ := by
  have h := C3_jmp_call_rel32 [(('L' :: []), 0)] ('L' :: []) 0 ⟨0, 0, []⟩ 0
    (by decide) (by decide) rfl (by decide) (by decide)
  exact ⟨h.1, h.2.1⟩

end Tri

namespace Tri

/-- Helper: tokens of a DB line: the mnemonic followed by the payload tokens. -/
theorem tokenize_db (payload : Line) :
    tokenize ('D' :: 'B' :: ' ' :: payload) = ("DB".data) :: tokenize payload := by
  unfold tokenize
  have h1 : ('D' :: 'B' :: ' ' :: payload : Line) = ('D' :: 'B' :: []) ++ (' ' :: payload) := rfl
  rw [h1, splitAcc_append_token ('D' :: 'B' :: []) (' ' :: payload) (by decide)]
  have h2 : splitAcc (' ' :: payload) = [] :: splitAcc payload := rfl
  rw [h2]
  rfl

/-- Helper: joinComma of well-formed operands is never empty. -/
theorem joinComma_ne_nil (ops : List Line) (hne : ops ≠ []) (h1 : ∀ t ∈ ops, t ≠ []) :
    joinComma ops ≠ [] := by
  cases ops with
  | nil => exact absurd rfl hne
  | cons t r =>
    cases r with
    | nil =>
      show t ≠ []
      exact h1 t (by simp)
    | cons t2 r2 =>
      show t ++ ',' :: joinComma (t2 :: r2) ≠ []
      have := h1 t (by simp)
      simp

/-- Helper: tokenize recovers the operand list from its comma-join. -/
theorem tokenize_joinComma (ops : List Line) (hne : ops ≠ [])
    (h1 : ∀ t ∈ ops, t ≠ []) (h2 : ∀ t ∈ ops, ∀ c ∈ t, isDelim c = false) :
    tokenize (joinComma ops) = ops := by
  induction ops with
  | nil => exact absurd rfl hne
  | cons t r ih =>
    cases r with
    | nil =>
      show tokenize t = [t]
      exact tokenize_token t (h1 t (by simp)) (h2 t (by simp))
    | cons t2 r2 =>
      show tokenize (t ++ ',' :: joinComma (t2 :: r2)) = t :: t2 :: r2
      unfold tokenize
      rw [splitAcc_append_token t (',' :: joinComma (t2 :: r2)) (h2 t (by simp))]
      have h3 : splitAcc (',' :: joinComma (t2 :: r2)) = [] :: splitAcc (joinComma (t2 :: r2)) := rfl
      rw [h3]
      have h4 : tokenize (joinComma (t2 :: r2)) = t2 :: r2 :=
        ih (by simp) (fun u hu => h1 u (by simp [hu])) (fun u hu => h2 u (by simp [hu]))
      unfold tokenize at h4
      have ht : t ≠ [] := h1 t (by simp)
      have htb : (!(t.isEmpty)) = true := by
        cases t with
        | nil => exact absurd rfl ht
        | cons c cs => rfl
      simp only [List.headD, List.tail, List.append_nil, List.filter_cons, htb, if_true]
      rw [h4]
  
/-- Helper: every line whose first character is not space or tab and whose
    last character is not in the trim set is fixed by trim. -/
theorem trim_eq_self (s : Line) (a b : Char) (ha : s.head? = some a)
    (hsa : isSpTab a = false) (hb : s.getLast? = some b) (hsb : isTrimEnd b = false) :
    trim s = s := by
  unfold trim
  have h1 : s.dropWhile isSpTab = s := by
    cases s with
    | nil => rfl
    | cons c t =>
      have : c = a := by simpa using ha
      subst this
      simp [List.dropWhile_cons, hsa]
  rw [h1]
  have h2 : s.reverse.head? = some b := by rw [List.head?_reverse]; exact hb
  have h3 : s.reverse.dropWhile isTrimEnd = s.reverse := by
    cases hrev : s.reverse with
    | nil => rfl
    | cons c t =>
      have : c = b := by rw [hrev] at h2; simpa using h2
      subst this
      simp [List.dropWhile_cons, hsb]
  rw [h3, List.reverse_reverse]

end Tri

namespace Tri

/-- Helper: the last character of a comma-join lies in one of the operands
    or is the separating comma; with nonempty operands it is always an
    operand character. -/
theorem joinComma_getLast (ops : List Line) (hne : ops ≠ []) (h1 : ∀ t ∈ ops, t ≠ []) :
    ∃ c t0, t0 ∈ ops ∧ c ∈ t0 ∧ (joinComma ops).getLast? = some c := by
  induction ops with
  | nil => exact absurd rfl hne
  | cons t r ih =>
    cases r with
    | nil =>
      have ht : t ≠ [] := h1 t (by simp)
      obtain ⟨c, hc⟩ := Option.isSome_iff_exists.mp (by
        rw [List.getLast?_isSome]; exact ht)
      exact ⟨c, t, by simp, List.mem_of_mem_getLast? hc, hc⟩
    | cons t2 r2 =>
      obtain ⟨c, t0, ht0, hct0, hlast⟩ :=
        ih (by simp) (fun u hu => h1 u (by simp [hu]))
      refine ⟨c, t0, by simp [ht0], hct0, ?_⟩
      show (t ++ ',' :: joinComma (t2 :: r2)).getLast? = some c
      rw [List.getLast?_append]
      rw [show (',' :: joinComma (t2 :: r2) : Line) = [','] ++ joinComma (t2 :: r2) from rfl]
      rw [List.getLast?_append, hlast]
      rfl

end Tri

namespace Tri

/-- Helper: the sprintf rewrite on a line ending in the stripped parenthesis. -/
theorem rwLine_concat (pre : Line) (k : Nat) (l : Line) (b : Char) :
    rwLine pre k (l ++ [b]) = pre ++ l.drop k := by
  unfold rwLine
  rw [List.dropLast_concat]

/-- Helper: dispatch of a db( call line: it is rewritten in place to a DB
    assembler line and falls through to the copy fallback. -/
theorem pass1Step_db (st : P1St) (i : Nat) (raw payload : Line)
    (h : trim raw = ('d' :: 'b' :: '(' :: payload) ++ [')']) :
    pass1Step st i raw =
      pass1Rest st i ('D' :: 'B' :: ' ' :: payload)
        (List.map Char.toLower (('d' :: 'b' :: '(' :: payload) ++ [')'])) := by
  simp only [pass1Step]
  rw [h]
  have hlast : lastIs (('d' :: 'b' :: '(' :: payload) ++ [')']) ')' = true := by
    unfold lastIs
    rw [List.getLast?_concat]
    rfl
  rw [hlast]
  simp only [rwLine_concat]
  rfl

/-- Helper: Pass A size of a DB line: one byte per operand token. -/
theorem line_sz_db (payload : Line) (ops : List Line) (htok : tokenize payload = ops) :
    line_sz ('D' :: 'B' :: ' ' :: payload) = some ops.length := by
  unfold line_sz
  rw [tokenize_db, htok]
  rfl

/-- Helper: the Pass A walk on a DB line advances PC by the token count and
    records no label. -/
theorem passAStep_db (st : ASt) (i : Nat) (payload : Line) (ops : List Line)
    (htrim : trim ('D' :: 'B' :: ' ' :: payload) = 'D' :: 'B' :: ' ' :: payload)
    (htok : tokenize payload = ops) :
    passAStep st i ('D' :: 'B' :: ' ' :: payload) =
      .ok ⟨(st.pc + ops.length) % M32, st.labels⟩ := by
  unfold passAStep
  rw [htrim, tokenize_db, htok, line_sz_db payload ops htok]
  rfl

/-- Helper: the Pass B dispatch of a DB line is the operand emission loop. -/
theorem passBStep_db (lbls : List (Line × Nat)) (st : BSt) (i : Nat) (payload : Line)
    (ops : List Line) (htok : tokenize payload = ops) :
    passBStep lbls st i ('D' :: 'B' :: ' ' :: payload) =
      dbEmit i st.pc st.filePos st.outw ops := by
  unfold passBStep
  rw [tokenize_db, htok]
  rfl

/-- Helper: the DB emission loop on in-range operands emits one byte per
    operand at consecutive file offsets. -/
theorem dbEmit_ok (ops : List Line) : ∀ (i pc fp : Nat) (w : List (Nat × Nat)),
    pc < M32 → (∀ t ∈ ops, ∃ v, parseImm t = some v ∧ v ≤ 255) →
    dbEmit i pc fp w ops =
      .ok ⟨(pc + ops.length) % M32, fp + ops.length, w ++ dbWrites fp ops⟩ := by
  induction ops with
  | nil =>
    intro i pc fp w hpc _
    show Except.ok (BSt.mk pc fp w) = _
    rw [show (pc + List.length ([] : List Line)) % M32 = pc from by
      simpa using Nat.mod_eq_of_lt hpc]
    simp [dbWrites]
  | cons t ts ih =>
    intro i pc fp w hpc hv
    obtain ⟨v, hvp, hvle⟩ := hv t (by simp)
    have hstep : dbEmit i pc fp w (t :: ts) =
        (if v > 255 then Except.error (BErr.rangeErr i)
         else dbEmit i ((pc + 1) % M32) (fp + 1) (w ++ [(fp, v)]) ts) := by
      show (match parseImm t with
            | none => Except.error (BErr.immErr i)
            | some b =>
              if b > 255 then Except.error (BErr.rangeErr i)
              else dbEmit i ((pc + 1) % M32) (fp + 1) (w ++ [(fp, b)]) ts) = _
      rw [hvp]
    rw [hstep]
    rw [if_neg (by omega)]
    rw [ih i ((pc + 1) % M32) (fp + 1) (w ++ [(fp, v)])
      (Nat.mod_lt _ (by unfold M32; omega))
      (fun u hu => hv u (by simp [hu]))]
    have hpc2 : ((pc + 1) % M32 + ts.length) % M32 = (pc + (ts.length + 1)) % M32 := by
      rw [Nat.mod_add_mod]
      have : pc + 1 + ts.length = pc + (ts.length + 1) := by omega
      rw [this]
    have hw : (w ++ [(fp, v)]) ++ dbWrites (fp + 1) ts = w ++ dbWrites fp (t :: ts) := by
      rw [show dbWrites fp (t :: ts) = (fp, (parseImm t).getD 0) :: dbWrites (fp + 1) ts from rfl]
      rw [hvp]
      simp
    rw [hpc2, hw]
    have : fp + 1 + ts.length = fp + (ts.length + 1) := by omega
    rw [this]
    rfl

/-- Helper: dbWrites emits one pair per operand. -/
theorem dbWrites_length (ops : List Line) : ∀ fp, (dbWrites fp ops).length = ops.length := by
  induction ops with
  | nil => intro fp; rfl
  | cons t ts ih => intro fp; simp [dbWrites, ih]

/-- Helper: the k-th write of dbWrites is the k-th operand's byte at offset
    fp + k. -/
theorem dbWrites_get (ops : List Line) : ∀ fp k (hk : k < (dbWrites fp ops).length)
    (hk2 : k < ops.length),
    (dbWrites fp ops).get ⟨k, hk⟩ = (fp + k, (parseImm (ops.get ⟨k, hk2⟩)).getD 0) := by
  induction ops with
  | nil => intro fp k hk hk2; exact absurd hk2 (by simp)
  | cons t ts ih =>
    intro fp k hk hk2
    cases k with
    | zero => simp [dbWrites]
    | succ m =>
      have hm2 : m < ts.length := by simp at hk2; omega
      have hm : m < (dbWrites (fp + 1) ts).length := by rw [dbWrites_length]; exact hm2
      have hstep : (dbWrites fp (t :: ts)).get ⟨m + 1, hk⟩ =
          (dbWrites (fp + 1) ts).get ⟨m, hm⟩ := rfl
      rw [hstep, ih (fp + 1) m hm hm2]
      have h1 : (fp + 1) + m = fp + (m + 1) := by omega
      have h2 : (ts.get ⟨m, hm2⟩) = ((t :: ts).get ⟨m + 1, hk2⟩) := rfl
      rw [h1, h2]

end Tri

namespace Tri

/-- C7. DB round trip: a program consisting of the single line db(x1,...,xN)
    with well-formed operands in 0..255 translates successfully; the output
    is exactly N bytes, the k-th write placing the k-th operand's value at
    offset k (offsets starting at 0); and the sizer gives the lowered DB line
    size exactly N. -/
theorem C7_db_round_trip (ops : List Line)
    (hne : ops ≠ [])
    (hgood : ∀ t ∈ ops, t ≠ [] ∧ ∀ c ∈ t, isDelim c = false ∧ isTrimEnd c = false)
    (hval : ∀ t ∈ ops, ∃ v, parseImm t = some v ∧ v ≤ 255)
    (hcap : (('d' :: 'b' :: '(' :: joinComma ops) ++ [')']).length ≤ 79) :
    translate [('d' :: 'b' :: '(' :: joinComma ops) ++ [')']] = .ok (dbWrites 0 ops)
    ∧ (dbWrites 0 ops).length = ops.length
    ∧ (∀ k (hk : k < (dbWrites 0 ops).length) (hk2 : k < ops.length) (v : Nat),
        parseImm (ops.get ⟨k, hk2⟩) = some v → (dbWrites 0 ops).get ⟨k, hk⟩ = (k, v))
    ∧ line_sz ('D' :: 'B' :: ' ' :: joinComma ops) = some ops.length := by
  have h1 : ∀ t ∈ ops, t ≠ [] := fun t ht => (hgood t ht).1
  have h2 : ∀ t ∈ ops, ∀ c ∈ t, isDelim c = false := fun t ht c hc => ((hgood t ht).2 c hc).1
  have htok : tokenize (joinComma ops) = ops := tokenize_joinComma ops hne h1 h2
  have htrimraw : trim (('d' :: 'b' :: '(' :: joinComma ops) ++ [')']) =
      ('d' :: 'b' :: '(' :: joinComma ops) ++ [')'] :=
    trim_eq_self _ 'd' ')' rfl rfl (List.getLast?_concat _) rfl
  have hdbline : trim ('D' :: 'B' :: ' ' :: joinComma ops) =
      'D' :: 'B' :: ' ' :: joinComma ops := by
    obtain ⟨c, t0, ht0, hct0, hlast⟩ := joinComma_getLast ops hne h1
    apply trim_eq_self ('D' :: 'B' :: ' ' :: joinComma ops) 'D' c rfl rfl
    · show (('D' :: 'B' :: ' ' :: []) ++ joinComma ops).getLast? = some c
      rw [List.getLast?_append, hlast]
      rfl
    · exact ((hgood t0 ht0).2 c hct0).2
  have hrest : pass1Rest ⟨[], (false, false), []⟩ 0 ('D' :: 'B' :: ' ' :: joinComma ops)
      (List.map Char.toLower (('d' :: 'b' :: '(' :: joinComma ops) ++ [')'])) =
      .ok (emitOne ⟨[], (false, false), []⟩ 0 ('D' :: 'B' :: ' ' :: joinComma ops)) := rfl
  have hp1 : pass1 [('d' :: 'b' :: '(' :: joinComma ops) ++ [')']] =
      .ok [(('D' :: 'B' :: ' ' :: joinComma ops), 0)] := by
    unfold pass1
    simp only [pass1Go]
    rw [pass1Step_db ⟨[], (false, false), []⟩ 0 _ (joinComma ops) htrimraw, hrest]
    rfl
  have hclone : asm_passA_clone [('D' :: 'B' :: ' ' :: joinComma ops)] =
      .ok [(('D' :: 'B' :: ' ' :: joinComma ops), 0)] := rfl
  have hwalk : passAWalkFrom ⟨0, []⟩ 0 [('D' :: 'B' :: ' ' :: joinComma ops)] =
      .ok ⟨(0 + ops.length) % M32, []⟩ := by
    simp only [passAWalkFrom]
    rw [passAStep_db ⟨0, []⟩ 0 (joinComma ops) ops hdbline htok]
  have hrun : passBRun [] ⟨0, 0, []⟩ 0 [('D' :: 'B' :: ' ' :: joinComma ops)] =
      .ok ⟨(0 + ops.length) % M32, 0 + ops.length, [] ++ dbWrites 0 ops⟩ := by
    simp only [passBRun]
    rw [passBStep_db [] ⟨0, 0, []⟩ 0 (joinComma ops) ops htok]
    rw [dbEmit_ok ops 0 0 0 [] (by unfold M32; omega) hval]
  refine ⟨?_, by rw [dbWrites_length], ?_, line_sz_db (joinComma ops) ops htok⟩
  · simp only [translate, hp1, List.map_cons, List.map_nil, hclone, hwalk, hrun,
      List.nil_append]
  · intro k hk hk2 v hv2
    rw [dbWrites_get ops 0 k hk hk2, hv2]
    simp

/-- Witness for C7 at db(1,2,3): three bytes 1,2,3 at offsets 0,1,2 and
    sizer size 3. -/
theorem C7_witness :
    translate [('d' :: 'b' :: '(' :: joinComma [['1'], ['2'], ['3']]) ++ [')']] =
      .ok (dbWrites 0 [['1'], ['2'], ['3']])
    ∧ (dbWrites 0 [['1'], ['2'], ['3']]).length = 3
    ∧ line_sz ('D' :: 'B' :: ' ' :: joinComma [['1'], ['2'], ['3']]) = some 3 := by
  have h := C7_db_round_trip [['1'], ['2'], ['3']] (by decide)
    (by decide)
    (by
      intro t ht
      simp at ht
      rcases ht with h | h | h <;> subst h
      · exact ⟨1, by decide, by decide⟩
      · exact ⟨2, by decide, by decide⟩
      · exact ⟨3, by decide, by decide⟩)
    (by decide)
  exact ⟨h.1, h.2.1, h.2.2.2⟩

end Tri

namespace Tri

/-- Helper: a hex digit is not C whitespace, a sign, or an x/X prefix
    character. -/
theorem hexDig_facts (c : Char) (h : isHexDig c = true) :
    isCSpace c = false ∧ c ≠ '-' ∧ c ≠ '+' ∧ c ≠ 'x' ∧ c ≠ 'X' := by
  refine ⟨?_, ?_, ?_, ?_, ?_⟩
  · cases hcs : isCSpace c with
    | false => rfl
    | true =>
      exfalso
      simp only [isHexDig, isDig, Bool.or_eq_true, Bool.and_eq_true,
        decide_eq_true_eq] at h
      simp only [isCSpace, Bool.or_eq_true, Bool.and_eq_true, decide_eq_true_eq,
        beq_iff_eq] at hcs
      omega
  · intro heq; rw [heq] at h; exact absurd h (by decide)
  · intro heq; rw [heq] at h; exact absurd h (by decide)
  · intro heq; rw [heq] at h; exact absurd h (by decide)
  · intro heq; rw [heq] at h; exact absurd h (by decide)

/-- Helper: a decimal digit is not C whitespace or a sign. -/
theorem dig_facts (c : Char) (h : isDig c = true) :
    isCSpace c = false ∧ c ≠ '-' ∧ c ≠ '+' := by
  refine ⟨?_, ?_, ?_⟩
  · cases hcs : isCSpace c with
    | false => rfl
    | true =>
      exfalso
      simp only [isDig, Bool.and_eq_true, decide_eq_true_eq] at h
      simp only [isCSpace, Bool.or_eq_true, Bool.and_eq_true, decide_eq_true_eq,
        beq_iff_eq] at hcs
      omega
  · intro heq; rw [heq] at h; exact absurd h (by decide)
  · intro heq; rw [heq] at h; exact absurd h (by decide)

/-- Helper: takeWhile keeps a list all of whose elements satisfy p. -/
theorem takeWhile_all {p : Char → Bool} (l : Line) (h : ∀ x ∈ l, p x = true) :
    l.takeWhile p = l := by
  induction l with
  | nil => rfl
  | cons c t ih =>
    rw [List.takeWhile_cons, h c (by simp), if_pos rfl,
      ih (fun x hx => h x (by simp [hx]))]

/-- Helper: dropWhile empties a list all of whose elements satisfy p. -/
theorem dropWhile_all {p : Char → Bool} (l : Line) (h : ∀ x ∈ l, p x = true) :
    l.dropWhile p = [] := by
  induction l with
  | nil => rfl
  | cons c t ih =>
    rw [List.dropWhile_cons, h c (by simp), if_pos rfl]
    exact ih (fun x hx => h x (by simp [hx]))

/-- Helper: takeWhile and dropWhile split at the first failing element. -/
theorem takeWhile_append_stop {p : Char → Bool} (hd : Line) (c : Char) (rest : Line)
    (h : ∀ x ∈ hd, p x = true) (hc : p c = false) :
    (hd ++ c :: rest).takeWhile p = hd ∧ (hd ++ c :: rest).dropWhile p = c :: rest := by
  induction hd with
  | nil =>
    constructor
    · rw [List.nil_append, List.takeWhile_cons, hc, if_neg (by simp)]
    · rw [List.nil_append, List.dropWhile_cons, hc, if_neg (by simp)]
  | cons d t ih =>
    obtain ⟨ih1, ih2⟩ := ih (fun x hx => h x (by simp [hx]))
    constructor
    · rw [List.cons_append, List.takeWhile_cons, h d (by simp), if_pos rfl, ih1]
    · rw [List.cons_append, List.dropWhile_cons, h d (by simp), if_pos rfl]
      exact ih2

/-- Helper: strtoul base 16 on an all-hex nonempty digit run consumes the
    whole run. -/
theorem strtoul16_allhex (hs : Line) (hne : hs ≠ [])
    (hhex : ∀ c ∈ hs, isHexDig c = true) (hv : digitsValue 16 dvHex hs < M64) :
    strtoul16 hs = ⟨digitsValue 16 dvHex hs, [], true⟩ := by
  cases hs with
  | nil => exact absurd rfl hne
  | cons c t =>
    have hc : isHexDig c = true := hhex c (by simp)
    obtain ⟨hsp, hm, hp, hx, hX⟩ := hexDig_facts c hc
    simp only [strtoul16]
    rw [show (c :: t : Line).dropWhile isCSpace = c :: t from by
      rw [List.dropWhile_cons, hsp]; simp]
    rw [show sgnSplit (c :: t) = (false, c :: t) from by
      unfold sgnSplit
      rw [if_neg (by simp [hm]), if_neg (by simp [hp])]]
    have hx0 : hex0x (c :: t) = c :: t := by
      unfold hex0x
      cases t with
      | nil => rw [if_neg (by simp)]
      | cons c2 t2 =>
        have hc2 : isHexDig c2 = true := hhex c2 (by simp)
        obtain ⟨_, _, _, hx2, hX2⟩ := hexDig_facts c2 hc2
        rw [if_neg (by simp [hx2, hX2])]
    rw [hx0]
    rw [takeWhile_all (c :: t) hhex, dropWhile_all (c :: t) hhex]
    rw [if_neg (by simp)]
    have hcl : clamp64 (digitsValue 16 dvHex (c :: t)) = digitsValue 16 dvHex (c :: t) := by
      unfold clamp64
      rw [if_neg (by omega)]
    simp only [hcl]
    rfl

/-- Helper: strtoul base 16 on a hex run followed by a non-hex character
    stops there with the suffix unconsumed. -/
theorem strtoul16_garbage (hd : Line) (c : Char) (rest : Line) (hne : hd ≠ [])
    (hhex : ∀ x ∈ hd, isHexDig x = true) (hc : isHexDig c = false)
    (hcx : c ≠ 'x') (hcX : c ≠ 'X') :
    (strtoul16 (hd ++ c :: rest)).rest = c :: rest ∧
    (strtoul16 (hd ++ c :: rest)).consumed = true := by
  cases hd with
  | nil => exact absurd rfl hne
  | cons d t =>
    have hdg : isHexDig d = true := hhex d (by simp)
    obtain ⟨hsp, hm, hp, hx, hX⟩ := hexDig_facts d hdg
    simp only [strtoul16]
    rw [show ((d :: t : Line) ++ c :: rest).dropWhile isCSpace = (d :: t) ++ c :: rest from by
      rw [List.cons_append, List.dropWhile_cons, hsp]; simp]
    rw [show sgnSplit ((d :: t) ++ c :: rest) = (false, (d :: t) ++ c :: rest) from by
      unfold sgnSplit
      rw [if_neg (by simp [hm]), if_neg (by simp [hp])]]
    have hx0 : hex0x ((d :: t) ++ c :: rest) = (d :: t) ++ c :: rest := by
      unfold hex0x
      cases t with
      | nil => rw [if_neg (by simp [hcx, hcX])]
      | cons c2 t2 =>
        have hc2 : isHexDig c2 = true := hhex c2 (by simp)
        obtain ⟨_, _, _, hx2, hX2⟩ := hexDig_facts c2 hc2
        rw [if_neg (by simp [hx2, hX2])]
    rw [hx0]
    obtain ⟨htw, hdw⟩ := takeWhile_append_stop (d :: t) c rest hhex hc
    rw [htw, hdw]
    rw [if_neg (by simp)]
    constructor <;> rfl

end Tri

namespace Tri

/-- Helper: parseImm with its let-bindings expanded. -/
theorem parseImm_eq (s : Line) :
    parseImm s = (if pfx ("0x".data) s = true then
        (if !((strtoul16 (s.drop 2)).consumed) || !((strtoul16 (s.drop 2)).rest.isEmpty)
         then none else some ((strtoul16 (s.drop 2)).value % M32))
      else (if !((strtoul10 s).consumed) then none
            else some ((strtoul10 s).value % M32))) := rfl

/-- Helper: strtoul base 10 on digits followed by a non-digit suffix consumes
    exactly the digit run. -/
theorem strtoul10_digits_garbage (d : Char) (ds rest : Line)
    (hd : isDig d = true) (hds : ∀ c ∈ ds, isDig c = true)
    (hrest : rest = [] ∨ ∃ c rs, rest = c :: rs ∧ isDig c = false)
    (hv : digitsValue 10 dvDec (d :: ds) < M64) :
    strtoul10 ((d :: ds) ++ rest) = ⟨digitsValue 10 dvDec (d :: ds), rest, true⟩ := by
  obtain ⟨hsp, hm, hp⟩ := dig_facts d hd
  have hall : ∀ c ∈ d :: ds, isDig c = true := by
    intro c hc
    rcases List.mem_cons.mp hc with h | h
    · rw [h]; exact hd
    · exact hds c h
  simp only [strtoul10]
  rw [show ((d :: ds : Line) ++ rest).dropWhile isCSpace = (d :: ds) ++ rest from by
    rw [List.cons_append, List.dropWhile_cons, hsp]; simp]
  rw [show sgnSplit ((d :: ds) ++ rest) = (false, (d :: ds) ++ rest) from by
    unfold sgnSplit
    rw [if_neg (by simp [hm]), if_neg (by simp [hp])]]
  have hsplit : ((d :: ds) ++ rest).takeWhile isDig = d :: ds ∧
      ((d :: ds) ++ rest).dropWhile isDig = rest := by
    rcases hrest with h | ⟨c, rs, hr, hc⟩
    · subst h
      rw [List.append_nil]
      exact ⟨takeWhile_all (d :: ds) hall, dropWhile_all (d :: ds) hall⟩
    · subst hr
      exact takeWhile_append_stop (d :: ds) c rs hall hc
  rw [hsplit.1, hsplit.2]
  rw [if_neg (by simp)]
  have hcl : clamp64 (digitsValue 10 dvDec (d :: ds)) = digitsValue 10 dvDec (d :: ds) := by
    unfold clamp64
    rw [if_neg (by omega)]
  simp only [hcl]
  rfl

/-- Helper: strtoul base 10 consumes nothing when the first character is not
    a digit, whitespace or sign. -/
theorem strtoul10_nodigits (c : Char) (rest : Line) (hc : isDig c = false)
    (hsp : isCSpace c = false) (hm : c ≠ '-') (hp : c ≠ '+') :
    strtoul10 (c :: rest) = ⟨0, c :: rest, false⟩ := by
  simp only [strtoul10]
  rw [show (c :: rest : Line).dropWhile isCSpace = c :: rest from by
    rw [List.dropWhile_cons, hsp]; simp]
  rw [show sgnSplit (c :: rest) = (false, c :: rest) from by
    unfold sgnSplit
    rw [if_neg (by simp [hm]), if_neg (by simp [hp])]]
  rw [show (c :: rest : Line).takeWhile isDig = [] from by
    rw [List.takeWhile_cons, hc, if_neg (by simp)]]
  rw [if_pos (show List.isEmpty ([] : List Char) = true from rfl)]

/-- C2 amended. Immediate parsing as the code implements it: a `0x` operand
    made of hex digits parses to their value; a bare `0x` is fatal; hex
    digits followed by a non-hex character are fatal (the hex branch checks
    the end pointer); but in the decimal branch only a completely digitless
    operand is fatal — a digit run followed by trailing garbage is accepted
    with the value of the leading digits, contrary to the original claim. -/
theorem C2_amended_parseImm :
    (∀ hs : Line, hs ≠ [] → (∀ c ∈ hs, isHexDig c = true) →
      digitsValue 16 dvHex hs < M64 →
      parseImm ('0' :: 'x' :: hs) = some (digitsValue 16 dvHex hs % M32))
    ∧ parseImm ('0' :: 'x' :: []) = none
    ∧ (∀ (hd : Line) (c : Char) (rest : Line), hd ≠ [] →
        (∀ x ∈ hd, isHexDig x = true) → isHexDig c = false → c ≠ 'x' → c ≠ 'X' →
        parseImm ('0' :: 'x' :: (hd ++ c :: rest)) = none)
    ∧ (∀ (d : Char) (ds rest : Line), isDig d = true → (∀ c ∈ ds, isDig c = true) →
        (rest = [] ∨ ∃ c rs, rest = c :: rs ∧ isDig c = false) →
        ¬(d = '0' ∧ (ds ++ rest).head? = some 'x') →
        digitsValue 10 dvDec (d :: ds) < M64 →
        parseImm ((d :: ds) ++ rest) = some (digitsValue 10 dvDec (d :: ds) % M32))
    ∧ (∀ (c : Char) (rest : Line), isDig c = false → isCSpace c = false →
        c ≠ '-' → c ≠ '+' →
        parseImm (c :: rest) = none) := by
  refine ⟨?_, by decide, ?_, ?_, ?_⟩
  · intro hs hne hhex hv
    rw [parseImm_eq]
    rw [if_pos (show pfx ("0x".data) ('0' :: 'x' :: hs) = true from rfl)]
    rw [show (('0' :: 'x' :: hs : Line).drop 2) = hs from rfl]
    rw [strtoul16_allhex hs hne hhex hv]
    rfl
  · intro hd c rest hne hhex hc hcx hcX
    rw [parseImm_eq]
    rw [if_pos (show pfx ("0x".data) ('0' :: 'x' :: (hd ++ c :: rest)) = true from rfl)]
    rw [show (('0' :: 'x' :: (hd ++ c :: rest) : Line).drop 2) = hd ++ c :: rest from rfl]
    obtain ⟨hr, hcons⟩ := strtoul16_garbage hd c rest hne hhex hc hcx hcX
    rw [hr, hcons]
    rfl
  · intro d ds rest hd hds hrest hnx hv
    have hpfx : pfx ("0x".data) (d :: (ds ++ rest)) = false := by
      have hstep : pfx ("0x".data) (d :: (ds ++ rest)) =
          (('0' == d) && pfx ('x' :: []) (ds ++ rest)) := rfl
      rw [hstep]
      by_cases hd0 : d = '0'
      · subst hd0
        have hnx2 : (ds ++ rest).head? ≠ some 'x' := fun hh => hnx ⟨rfl, hh⟩
        cases hde : ds ++ rest with
        | nil => rfl
        | cons e t =>
          have he : ('x' == e) = false := by
            rw [beq_eq_false_iff_ne]
            intro hh
            exact hnx2 (by rw [hde, ← hh]; rfl)
          have hstep2 : (('0' == '0') && pfx ('x' :: []) (e :: t)) =
              (('x' == e) && pfx ([] : Line) t) := rfl
          rw [hstep2, he, Bool.false_and]
      · have hbe : ('0' == d) = false := by
          rw [beq_eq_false_iff_ne]
          exact fun hh => hd0 hh.symm
        rw [hbe, Bool.false_and]
    rw [parseImm_eq, if_neg (by simp [hpfx])]
    rw [strtoul10_digits_garbage d ds rest hd hds hrest hv]
    rfl
  · intro c rest hc hsp hm hp
    have h0 : c ≠ '0' := by
      intro heq
      rw [heq] at hc
      exact absurd hc (by decide)
    have hpfx : pfx ("0x".data) (c :: rest) = false := by
      show (('0' == c) && pfx ('x' :: []) rest) = false
      rw [show ('0' == c) = false from by
        rw [beq_eq_false_iff_ne]; exact fun hh => h0 hh.symm]
      simp
    rw [parseImm_eq, if_neg (by simp [hpfx])]
    rw [strtoul10_nodigits c rest hc hsp hm hp]
    rfl

/-- Witness for the amended C2: 0x1f parses to 31; 0x1g is fatal; 12x parses
    to 12 despite the trailing non-digit; z1 is fatal. -/
theorem C2_witness :
    parseImm ('0' :: 'x' :: '1' :: 'f' :: []) = some 31
    ∧ parseImm ('0' :: 'x' :: (('1' :: []) ++ 'g' :: [])) = none
    ∧ parseImm (('1' :: '2' :: []) ++ 'x' :: []) = some 12
    ∧ parseImm ('z' :: '1' :: []) = none := by
  have h := C2_amended_parseImm
  refine ⟨?_, ?_, ?_, ?_⟩
  · exact h.1 ('1' :: 'f' :: []) (by decide) (by decide) (by decide)
  · exact h.2.2.1 ('1' :: []) 'g' [] (by decide) (by decide) (by decide)
      (by decide) (by decide)
  · exact h.2.2.2.1 '1' ('2' :: []) ('x' :: []) (by decide) (by decide)
      (Or.inr ⟨'x', [], rfl, by decide⟩) (by decide) (by decide)
  · exact h.2.2.2.2 'z' ('1' :: []) (by decide) (by decide) (by decide) (by decide)

end Tri

namespace Tri

/-- Helper: a 79-character fgets read of a longer all-a line takes exactly 79
    characters. -/
theorem fgetsChunk_ge (k : Nat) : ∀ (m : Nat) (r : List Char), k ≤ m →
    fgetsChunk k (List.replicate m 'a' ++ r) =
      (List.replicate k 'a', List.replicate (m - k) 'a' ++ r) := by
  induction k with
  | zero =>
    intro m r _
    simp [fgetsChunk]
  | succ j ih =>
    intro m r hm
    obtain ⟨m2, rfl⟩ : ∃ m2, m = m2 + 1 := ⟨m - 1, by omega⟩
    rw [List.replicate_succ, List.cons_append]
    show (if 'a' = '\n' then (['a'], List.replicate m2 'a' ++ r)
          else
            let q := fgetsChunk j (List.replicate m2 'a' ++ r)
            ('a' :: q.1, q.2)) = _
    rw [if_neg (by decide)]
    rw [ih m2 r (by omega)]
    have : m2 + 1 - (j + 1) = m2 - j := by omega
    rw [this, List.replicate_succ]

/-- Helper: an fgets read of a short all-a line takes the whole line with its
    newline. -/
theorem fgetsChunk_lt (m : Nat) : ∀ (k : Nat), m < k →
    fgetsChunk k (List.replicate m 'a' ++ ['\n']) =
      (List.replicate m 'a' ++ ['\n'], []) := by
  induction m with
  | zero =>
    intro k hk
    obtain ⟨j, rfl⟩ : ∃ j, k = j + 1 := ⟨k - 1, by omega⟩
    rfl
  | succ m2 ih =>
    intro k hk
    obtain ⟨j, rfl⟩ : ∃ j, k = j + 1 := ⟨k - 1, by omega⟩
    rw [List.replicate_succ, List.cons_append]
    show (if 'a' = '\n' then (['a'], List.replicate m2 'a' ++ ['\n'])
          else
            let q := fgetsChunk j (List.replicate m2 'a' ++ ['\n'])
            ('a' :: q.1, q.2)) = _
    rw [if_neg (by decide)]
    rw [ih j (by omega)]

/-- Helper: trimming an all-a line with its newline drops only the newline. -/
theorem trim_rep_nl (m : Nat) :
    trim (List.replicate (m + 1) 'a' ++ ['\n']) = List.replicate (m + 1) 'a' := by
  unfold trim
  have h1 : (List.replicate (m + 1) 'a' ++ ['\n']).dropWhile isSpTab =
      List.replicate (m + 1) 'a' ++ ['\n'] := by
    rw [List.replicate_succ, List.cons_append, List.dropWhile_cons,
      if_neg (by decide)]
  rw [h1]
  have h2 : (List.replicate (m + 1) 'a' ++ ['\n']).reverse =
      '\n' :: 'a' :: List.replicate m 'a' := by
    rw [List.reverse_append, List.reverse_replicate]
    rfl
  rw [h2]
  rw [List.dropWhile_cons, if_pos (show isTrimEnd '\n' = true from rfl)]
  rw [List.dropWhile_cons, if_neg (show ¬ isTrimEnd 'a' = true from by decide)]
  rw [List.reverse_cons, List.reverse_replicate, ← List.replicate_succ']

/-- Helper: one fgets iteration of the read_src loop on a nonempty stream. -/
theorem readLoop_ne (fuel : Nat) (s : List Char) (acc : List Line) (h : s ≠ []) :
    readLoop (fuel + 1) s acc =
      (if trim (fgetsChunk 79 s).1 ≠ [] ∧ (trim (fgetsChunk 79 s).1).head? ≠ some ';' then
        if acc.length ≥ 512 then .error .tooMany
        else readLoop fuel (fgetsChunk 79 s).2 (acc ++ [trim (fgetsChunk 79 s).1])
      else readLoop fuel (fgetsChunk 79 s).2 acc) := by
  cases s with
  | nil => exact absurd rfl h
  | cons c cs => rfl

/-- C4 amended. The loader does not truncate an over-long raw line to a
    single retained line: fgets reads it in 79-byte chunks and each chunk is
    retained separately, so a raw line of 80+k+1 text bytes (k at most 77)
    followed by its newline yields exactly two retained lines, the first 79
    bytes and then the remaining k+1 bytes. -/
theorem C4_amended (k : Nat) (hk : k ≤ 77) :
    read_src (List.replicate (k + 80) 'a' ++ ['\n']) =
      .ok [List.replicate 79 'a', List.replicate (k + 1) 'a'] := by
  unfold read_src
  rw [show (List.replicate (k + 80) 'a' ++ ['\n']).length + 1 = (k + 81) + 1 from by
    simp]
  rw [readLoop_ne (k + 81) _ [] (by simp)]
  rw [fgetsChunk_ge 79 (k + 80) ['\n'] (by omega)]
  rw [show k + 80 - 79 = k + 1 from by omega]
  rw [show trim (List.replicate 79 'a') = List.replicate 79 'a' from by decide]
  rw [if_pos (by refine ⟨by simp, ?_⟩; rw [show (79 : Nat) = 78 + 1 from rfl,
    List.replicate_succ]; simp)]
  rw [if_neg (by simp)]
  rw [show k + 81 = (k + 80) + 1 from by omega]
  rw [readLoop_ne (k + 80) _ _ (by simp)]
  rw [fgetsChunk_lt (k + 1) 79 (by omega)]
  rw [show k + 1 = k + 1 from rfl, trim_rep_nl k]
  rw [if_pos (by refine ⟨by simp, ?_⟩; rw [List.replicate_succ]; simp)]
  rw [if_neg (by simp)]
  rfl

/-- Witness for the amended C4 at an 80-byte raw line: retained as a 79-byte
    line followed by a 1-byte line. -/
theorem C4_witness :
    read_src (List.replicate 80 'a' ++ ['\n']) =
      .ok [List.replicate 79 'a', List.replicate 1 'a'] := by
  have h := C4_amended 0 (by decide)
  simpa using h

end Tri

namespace Tri

/-- C8 amended. The label table is write-once only with respect to the full
    (pre-truncation) name: recording a label whose untruncated name equals an
    already-stored (truncated) name is a fatal duplicate-label error whose
    diagnostic carries the offending assembler line; otherwise (within the
    128-entry cap) the name is stored truncated to 15 bytes. For names of at
    most 15 bytes this matches the original claim, but two distinct longer
    names sharing a 15-byte prefix are both recorded under the same stored
    name (see the counterexample), so stored names need not be unique. -/
theorem C8_amended_recordLabel :
    (∀ (tbl : List (Line × Nat)) (nm : Line) (pc aidx : Nat),
      (∃ e ∈ tbl, e.1 = nm) → recordLabel tbl nm pc aidx = .error (.dupLabel aidx))
    ∧ (∀ (tbl : List (Line × Nat)) (nm : Line) (pc aidx : Nat),
      tbl.length < 128 → (∀ e ∈ tbl, e.1 ≠ nm) →
      recordLabel tbl nm pc aidx = .ok (tbl ++ [(nm.take 15, pc)]))
    ∧ (∀ (tbl : List (Line × Nat)) (nm : Line) (pc aidx : Nat),
      nm.length ≤ 15 → (∃ e ∈ tbl, e.1 = nm.take 15) →
      recordLabel tbl nm pc aidx = .error (.dupLabel aidx)) := by
  have hdup : ∀ (tbl : List (Line × Nat)) (nm : Line) (pc aidx : Nat),
      (∃ e ∈ tbl, e.1 = nm) → recordLabel tbl nm pc aidx = .error (.dupLabel aidx) := by
    intro tbl nm pc aidx ⟨e, he, hnm⟩
    unfold recordLabel
    rw [if_pos ?_]
    rw [List.any_eq_true]
    exact ⟨e, he, by rw [hnm]; simp⟩
  refine ⟨hdup, ?_, ?_⟩
  · intro tbl nm pc aidx hcap hno
    unfold recordLabel
    rw [if_neg ?_, if_neg (by omega)]
    rw [List.any_eq_true]
    rintro ⟨e, he, hnm⟩
    simp only [decide_eq_true_eq] at hnm
    exact hno e he hnm
  · intro tbl nm pc aidx hlen hex
    apply hdup
    rwa [List.take_of_length_le hlen] at hex

/-- Witness for the amended C8: re-recording an existing short name errors
    with the offending line; recording a fresh name stores it. -/
theorem C8_witness :
    recordLabel [(('A' :: []), 0)] ('A' :: []) 5 1 = .error (.dupLabel 1)
    ∧ recordLabel [] ('B' :: []) 7 0 = .ok [((('B' :: []).take 15), 7)] := by
  constructor
  · exact C8_amended_recordLabel.1 [(('A' :: []), 0)] ('A' :: []) 5 1
      ⟨(('A' :: []), 0), by simp, rfl⟩
  · exact C8_amended_recordLabel.2.1 [] ('B' :: []) 7 0 (by decide) (by simp)

end Tri
